import Mathlib

/-!
# cpu_staker: a shallow embedding of `staker.go`

The program reads `accounts.txt` and `done.txt`, splits the account list into
chunks, checks the custodian balance, and then, chunk by chunk, builds, signs
and pushes one `delegatebw` transaction and polls the CPU weight of the chunk's
first account until it differs from the value read before the first push.

Conventions of the embedding.

* Go `int` and `int64` values are `Int`s; every arithmetic result is passed
  through `wrap64` (two's-complement wrap-around at 64 bits).
* A Go slice is the list of the cells it shows.  `remove` writes into the array
  it shares with its caller, so it returns both the slice it hands back and the
  cells the caller's slice shows afterwards.
* The outside world is scripted: the contents of the files and the successive
  answers of the ledger are inputs (`Env`); the effects of a run are the list of
  `Event`s it emits and its `Outcome`.
* Unbounded loops take a fuel argument; running out of fuel, or out of scripted
  ledger answers, is the outcome `Outcome.running`.
-/

namespace Staker

/-! ## Machine integers -/

/-- Two's-complement wrap-around of a mathematical integer to `int64`. -/
def wrap64 (x : Int) : Int := (x + 2 ^ 63) % 2 ^ 64 - 2 ^ 63

/-- The values of type `int64`. -/
def inInt64 (x : Int) : Prop := -(2 : Int) ^ 63 ≤ x ∧ x < 2 ^ 63

instance (x : Int) : Decidable (inInt64 x) := by unfold inInt64; infer_instance

/-! ## Configuration -/

/-- The `[config]` table of `config.toml` (`botConfiguration.Config`).  The field
`useBalanceInt64` holds the value returned by the method `UseBalanceInt64`, that
is `int64(UseBalance * 100_000_000.0)`; the floating-point product itself is not
modelled. -/
structure Config where
  pkey : String
  account : String
  mode : String
  waxNode : String
  chunkSize : Int
  useBalanceInt64 : Int
deriving DecidableEq, Repr

/-! ## The function `remove` and the reading of the two files -/

/-- The index at which `for i, a := range s { if a == e { ... } }` first finds
`e`, counting from `i`. -/
def rangeFind (e : String) : List String → Nat → Option Nat
  | [], _ => none
  | a :: rest, i => if a = e then some i else rangeFind e rest (i + 1)

/-- What a call `remove(s, e)` leaves behind. -/
structure Removed where
  /-- The slice returned by `remove`. -/
  result : List String
  /-- The cells shown afterwards by the slice `s` that the caller passed: the
  same array, the same length. -/
  caller : List String
deriving DecidableEq, Repr

/-- The cells of the array behind `s` after `append(s[:i], t...)`, when
`i + len(t) ≤ len(s)` so that `append` writes in place: `t` is copied to the
positions `i, i+1, ...` and the other cells keep their value. -/
def appendInPlace (s : List String) (i : Nat) (t : List String) : List String :=
  s.take i ++ t ++ s.drop (i + t.length)

/-- The function `remove(s []string, e string) []string`: at the first `i` with
`s[i] == e` it returns `append(s[:i], s[i+1:]...)`, which has room in the array
of `s` and so overwrites it; without such an `i` it returns `s`. -/
def remove (s : List String) (e : String) : Removed :=
  match rangeFind e s 0 with
  | some i =>
    let t := s.drop (i + 1)
    let cells := appendInPlace s i t
    { result := cells.take (i + t.length), caller := cells }
  | none => { result := s, caller := s }

/-- The lines a `bufio.Scanner` loop keeps: `len(scanner.Text()) > 2`, the
length being the number of bytes. -/
def keptLine (line : String) : Bool := decide (line.utf8ByteSize > 2)

/-- The loop over `accounts.txt`: every line longer than two bytes is appended
to `accounts`. -/
def readAccounts (lines : List String) : List String :=
  lines.filter keptLine

/-- The loop over `done.txt`: for every line longer than two bytes,
`remove(accounts, line)` is called and its result is dropped; `accounts` keeps
its length and shows the cells that `remove` has rewritten. -/
def donePass (accounts : List String) (doneLines : List String) : List String :=
  doneLines.foldl
    (fun acc line => if keptLine line then (remove acc line).caller else acc) accounts

/-! ## Splitting into chunks -/

/-- How a loop of the program ends. -/
inductive Outcome where
  /-- The process ended with this exit status (`os.Exit`, or the return of `main`
  with status 0). -/
  | exit (code : Nat)
  /-- A run-time panic: slice bounds or index out of range. -/
  | panicBounds
  /-- A run-time panic: integer division by zero. -/
  | panicDivide
  /-- The `panic(err)` of `MakeAndSignTransaction`. -/
  | panicPack
  /-- Fuel or scripted ledger answers are used up: the process is still running. -/
  | running
deriving DecidableEq, Repr

/-- The exit status of the process, when it has ended: a panic ends a Go program
with status 2. -/
def Outcome.status : Outcome → Option Nat
  | .exit code => some code
  | .panicBounds => some 2
  | .panicDivide => some 2
  | .panicPack => some 2
  | .running => none

/-- The result of the chunking loop. -/
inductive Chunking where
  | done (chunks : List (List String))
  | stopped (o : Outcome)
deriving DecidableEq, Repr

/-- The loop
`for i := 0; i < len(accounts); i += ChunkSize { if i+ChunkSize > len(accounts) {...} else {...} }`
from the state `i`, `chunks`.  The slice expression `accounts[i:]` panics unless
`0 ≤ i ≤ len`, and `accounts[i:j]` panics unless `0 ≤ i ≤ j ≤ cap`. -/
def chunkLoop (accounts : List String) (chunkSize : Int) :
    Nat → Int → List (List String) → Chunking
  | 0, _, _ => .stopped .running
  | fuel + 1, i, chunks =>
    if i < accounts.length then
      let j := wrap64 (i + chunkSize)
      if j > accounts.length then
        if 0 ≤ i then
          chunkLoop accounts chunkSize fuel j (chunks ++ [accounts.drop i.toNat])
        else .stopped .panicBounds
      else
        if 0 ≤ i ∧ i ≤ j then
          chunkLoop accounts chunkSize fuel j
            (chunks ++ [(accounts.take j.toNat).drop i.toNat])
        else .stopped .panicBounds
    else .done chunks

/-- The chunking loop of `main` from its initial state. -/
def makeChunks (accounts : List String) (chunkSize : Int) (fuel : Nat) : Chunking :=
  chunkLoop accounts chunkSize fuel 0 []

/-! ## Actions -/

set_option linter.dupNamespace false in
/-- The type `eos.Symbol`. -/
structure Symbol where
  Precision : Nat
  Symbol : String
deriving DecidableEq, Repr

/-- The type `eos.Asset`: an amount in units of `10^-Precision`. -/
structure Asset where
  Amount : Int
  Symbol : Symbol
deriving DecidableEq, Repr

/-- The type `eos.PermissionLevel`. -/
structure PermissionLevel where
  Actor : String
  Permission : String
deriving DecidableEq, Repr

/-- The anonymous struct passed to `eos.NewActionData` by `FullActionDelegateBW`. -/
structure DelegateBW where
  From : String
  To : String
  Net : Asset
  Cpu : Asset
  Transfer : Bool
deriving DecidableEq, Repr

/-- The type `eos.Action`, with the action data of the only kind the program
builds. -/
structure Action where
  Account : String
  Name : String
  Authorization : List PermissionLevel
  ActionData : Option DelegateBW
deriving DecidableEq, Repr

/-- The function `wrapAct`: an action authorised by `caller@active`, without
data. -/
def wrapAct (account name caller : String) : Action :=
  { Account := account
    Name := name
    Authorization := [] ++ [{ Actor := caller, Permission := "active" }]
    ActionData := none }

/-- The function `FullActionDelegateBW`: `eosio::delegatebw` from `sender` to
`receiver` (the parameters `from` and `to`), never transferring ownership. -/
def FullActionDelegateBW (sender receiver : String) (cpuQuantity netQuantity : Asset) : Action :=
  { wrapAct "eosio" "delegatebw" sender with
    ActionData := some
      { From := sender, To := receiver, Net := netQuantity, Cpu := cpuQuantity, Transfer := false } }

/-- The CPU amount an action delegates. -/
def Action.cpuAmount (a : Action) : Int :=
  match a.ActionData with
  | some d => d.Cpu.Amount
  | none => 0

/-- The actions built at label `retry`: one `FullActionDelegateBW` per account of
the chunk, in order. -/
def chunkActions (cfg : Config) (cpuAsset netAsset : Asset) (chunk : List String) :
    List Action :=
  chunk.map (fun account => FullActionDelegateBW cfg.account account cpuAsset netAsset)

/-! ## The scripted world and the events of a run -/

/-- What one call of `MakeAndSignTransaction` meets: the number of failing
`FillFromChain` attempts before the one that succeeds, and whether `stx.Pack`
succeeds (otherwise the function panics). -/
structure Built where
  fillRetries : Nat
  packOk : Bool
deriving DecidableEq, Repr

/-- The answers of the ledger to the calls made inside the per-chunk loop, each
list in the order of the calls. -/
structure Ledger where
  /-- Answers of `api.GetAccount`: the `CPUWeight` of the account, or `none` for
  an error. -/
  getAccount : List (Option Int)
  /-- What the successive calls of `MakeAndSignTransaction` meet. -/
  makeAndSign : List Built
  /-- Answers of `api.PushTransaction`: `true` for a transaction id, `false` for
  an error. -/
  pushTransaction : List Bool
deriving DecidableEq, Repr

/-- Everything outside the program that a run depends on. -/
structure Env where
  /-- The decoded `config.toml`, or `none` when `toml.DecodeFile` fails. -/
  config : Option Config
  /-- The lines of `accounts.txt`, or `none` when it cannot be opened. -/
  accountsTxt : Option (List String)
  /-- The lines of `done.txt`, or `none` when it cannot be opened. -/
  doneTxt : Option (List String)
  /-- Whether `os.Create("done.txt")` succeeds. -/
  createDone : Bool
  /-- The slice returned by `api.GetCurrencyBalance` (amounts only); its error is
  dropped by the program. -/
  getCurrencyBalance : List Int
  ledger : Ledger
deriving DecidableEq, Repr

/-- The observable actions of a run.  Appends to `done.txt` are taken to succeed
(the program drops the errors of `os.OpenFile` and `WriteString`). -/
inductive Event where
  /-- A console line that precedes an exit. -/
  | say (line : String)
  /-- The call `api.GetCurrencyBalance(account, "WAX", "eosio.token")`. -/
  | getCurrencyBalance (account : String)
  /-- The call `api.GetAccount(firstAcc)` before label `retry`, with its answer. -/
  | snapshot (chunk : Nat) (account : String) (answer : Option Int)
  /-- A call of `MakeAndSignTransaction`. -/
  | makeAndSign (chunk : Nat) (actions : List Action) (built : Built)
  /-- A call of `api.PushTransaction`, with whether it succeeded. -/
  | pushTransaction (chunk : Nat) (actions : List Action) (ok : Bool)
  /-- The call `api.GetAccount(firstAcc)` at label `retryValidate`, with its
  answer. -/
  | validate (chunk : Nat) (account : String) (answer : Option Int)
  /-- The call `file.WriteString(account + "\n")` on `done.txt`. -/
  | append (chunk : Nat) (text : String)
deriving DecidableEq, Repr

/-- A run of the program: what it did and how it ended. -/
structure Run where
  trace : List Event
  outcome : Outcome
deriving DecidableEq, Repr

/-- How the processing of one chunk ends. -/
inductive Ending where
  /-- Control reached `fmt.Println("Transaction validated.")`; the ledger answers
  not yet consumed are `rest`. -/
  | validated (rest : Ledger)
  | stopped (o : Outcome)
deriving DecidableEq, Repr

/-- The events of the processing of one chunk after the snapshot, and its end. -/
structure ChunkRun where
  trace : List Event
  ending : Ending
deriving DecidableEq, Repr

/-- Put an event in front of the events of a chunk run. -/
def ChunkRun.emit (e : Event) (r : ChunkRun) : ChunkRun :=
  { r with trace := e :: r.trace }

/-- The two labels of the per-chunk loop. -/
inductive Label where
  | retry
  | retryValidate
deriving DecidableEq, Repr

/-! ## The per-chunk loop -/

/-- The body of `for i, chunk := range chunks` from label `retry` or
`retryValidate` on, for chunk number `i` with first account `firstAcc` and
snapshot weight `was`; `firstValidation` is the variable of that name (it is
assigned before `retryValidate` is first reached, so its value at `retry` does
not matter). -/
def engine (cfg : Config) (cpuAsset netAsset : Asset) (i : Nat) (chunk : List String)
    (firstAcc : String) (was : Int) : Nat → Label → Bool → Ledger → ChunkRun
  | 0, _, _, _ => { trace := [], ending := .stopped .running }
  | fuel + 1, .retry, _, led =>
    let actions := chunkActions cfg cpuAsset netAsset chunk
    match led.makeAndSign with
    | [] => { trace := [], ending := .stopped .running }
    | b :: builds =>
      if b.packOk then
        match led.pushTransaction with
        | [] => { trace := [.makeAndSign i actions b], ending := .stopped .running }
        | false :: _ =>
          { trace := [.makeAndSign i actions b, .pushTransaction i actions false]
            ending := .stopped (.exit 1) }
        | true :: pushes =>
          ((engine cfg cpuAsset netAsset i chunk firstAcc was fuel .retryValidate true
              { led with makeAndSign := builds, pushTransaction := pushes }).emit
            (.pushTransaction i actions true)).emit (.makeAndSign i actions b)
      else { trace := [.makeAndSign i actions b], ending := .stopped .panicPack }
  | fuel + 1, .retryValidate, firstValidation, led =>
    match led.getAccount with
    | [] => { trace := [], ending := .stopped .running }
    | none :: _ => { trace := [.validate i firstAcc none], ending := .stopped (.exit 1) }
    | some now :: answers =>
      let led1 := { led with getAccount := answers }
      if now = was then
        if firstValidation then
          (engine cfg cpuAsset netAsset i chunk firstAcc was fuel .retryValidate false led1).emit
            (.validate i firstAcc (some now))
        else
          (engine cfg cpuAsset netAsset i chunk firstAcc was fuel .retry false led1).emit
            (.validate i firstAcc (some now))
      else { trace := [.validate i firstAcc (some now)], ending := .validated led1 }

/-- The lines written for a validated chunk: `account + "\n"` for every account
of the chunk. -/
def appendChunk (i : Nat) (chunk : List String) : List Event :=
  chunk.map (fun account => Event.append i (account ++ "\n"))

/-- The loop `for i, chunk := range chunks` from chunk number `i` on; when the
chunks are used up `main` returns and the process ends with status 0. -/
def processChunks (cfg : Config) (cpuAsset netAsset : Asset) (fuel : Nat) :
    Nat → List (List String) → Ledger → Run
  | _, [], _ => { trace := [], outcome := .exit 0 }
  | i, chunk :: rest, led =>
    match chunk with
    | [] => { trace := [], outcome := .panicBounds }
    | firstAcc :: _ =>
      match led.getAccount with
      | [] => { trace := [], outcome := .running }
      | none :: _ => { trace := [.snapshot i firstAcc none], outcome := .exit 1 }
      | some was :: answers =>
        let r := engine cfg cpuAsset netAsset i chunk firstAcc was fuel .retry true
          { led with getAccount := answers }
        match r.ending with
        | .stopped o => { trace := .snapshot i firstAcc (some was) :: r.trace, outcome := o }
        | .validated led1 =>
          let next := processChunks cfg cpuAsset netAsset fuel (i + 1) rest led1
          { trace := .snapshot i firstAcc (some was) :: r.trace ++ appendChunk i chunk
              ++ next.trace
            outcome := next.outcome }

/-! ## The function `main` -/

/-- The quotient `a / b` of two `int64`: truncated toward zero, wrapped, and a
panic (`none`) when the divisor is zero. -/
def divInt64 (a b : Int) : Option Int :=
  if b = 0 then none else some (wrap64 (Int.tdiv a b))

/-- The value of `accounts` when the chunking loop starts, or `none` when `main`
has exited with status 1 before (a file that cannot be opened or created). -/
def loadAccounts (env : Env) : Option (List String) :=
  match env.accountsTxt with
  | none => none
  | some lines =>
    match env.doneTxt with
    | some doneLines => some (donePass (readAccounts lines) doneLines)
    | none => if env.createDone then some (readAccounts lines) else none

/-- The part of `main` from the balance query on. -/
def mainLedger (cfg : Config) (accounts : List String) (chunks : List (List String))
    (balance : List Int) (ledger : Ledger) (fuel : Nat) : Run :=
  match balance with
  | [] => { trace := [.getCurrencyBalance cfg.account], outcome := .panicBounds }
  | waxBalance :: _ =>
    if waxBalance < cfg.useBalanceInt64 then
      { trace := [.getCurrencyBalance cfg.account, .say "Not enough WAX balance"]
        outcome := .exit 1 }
    else if chunks.length = 0 then
      { trace := [.getCurrencyBalance cfg.account, .say "No chunks to process."]
        outcome := .exit 0 }
    else
      match divInt64 cfg.useBalanceInt64 accounts.length with
      | none => { trace := [.getCurrencyBalance cfg.account], outcome := .panicDivide }
      | some perAccount =>
        let cpuAsset : Asset :=
          { Amount := perAccount, Symbol := { Precision := 8, Symbol := "WAX" } }
        let netAsset : Asset := { Amount := 0, Symbol := cpuAsset.Symbol }
        let r := processChunks cfg cpuAsset netAsset fuel 0 chunks ledger
        { trace := .getCurrencyBalance cfg.account :: r.trace, outcome := r.outcome }

/-- The function `main`. -/
def main (env : Env) (fuel : Nat) : Run :=
  match env.config with
  | none => { trace := [], outcome := .exit 1 }
  | some cfg =>
    match loadAccounts env with
    | none => { trace := [], outcome := .exit 1 }
    | some accounts =>
      match makeChunks accounts cfg.chunkSize fuel with
      | .stopped o => { trace := [], outcome := o }
      | .done chunks => mainLedger cfg accounts chunks env.getCurrencyBalance env.ledger fuel

/-- The chunks that `main` goes on to process: the result of the chunking loop,
or none when the run ends before or inside that loop. -/
def plannedChunks (env : Env) (fuel : Nat) : List (List String) :=
  match env.config with
  | none => []
  | some cfg =>
    match loadAccounts env with
    | none => []
    | some accounts =>
      match makeChunks accounts cfg.chunkSize fuel with
      | .stopped _ => []
      | .done chunks => chunks

/-! ## Observations on traces -/

/-- The chunk number an event belongs to, if any. -/
def Event.chunk : Event → Option Nat
  | .say _ => none
  | .getCurrencyBalance _ => none
  | .snapshot i _ _ => some i
  | .makeAndSign i _ _ => some i
  | .pushTransaction i _ _ => some i
  | .validate i _ _ => some i
  | .append i _ => some i

/-- Whether the event is a write to `done.txt`. -/
def Event.isAppend : Event → Bool
  | .append _ _ => true
  | _ => false

/-- Whether the event is a call of `api.PushTransaction`. -/
def Event.isPush : Event → Bool
  | .pushTransaction _ _ _ => true
  | _ => false

/-- Whether the event is a call of `MakeAndSignTransaction`. -/
def Event.isBuild : Event → Bool
  | .makeAndSign _ _ _ => true
  | _ => false

/-- Whether the event is a snapshot read. -/
def Event.isSnapshot : Event → Bool
  | .snapshot _ _ _ => true
  | _ => false

/-- Whether the event is a call whose failure ends the process: an account lookup
or a push that returns an error, or a `MakeAndSignTransaction` that panics. -/
def Event.isFatal : Event → Bool
  | .snapshot _ _ none => true
  | .validate _ _ none => true
  | .pushTransaction _ _ false => true
  | .makeAndSign _ _ b => !b.packOk
  | _ => false

/-- The events that may lie between the snapshot of chunk `i` and the read that
confirms it: builds and pushes of chunk `i`, and validation reads of `firstAcc`
that return the snapshot weight `was`. -/
def Event.unconfirmed (i : Nat) (firstAcc : String) (was : Int) : Event → Bool
  | .makeAndSign j _ _ => decide (j = i)
  | .pushTransaction j _ _ => decide (j = i)
  | .validate j account answer => decide (j = i ∧ account = firstAcc ∧ answer = some was)
  | _ => false

/-- The texts written to `done.txt` in a trace, in order. -/
def appended : List Event → List String
  | [] => []
  | .append _ text :: rest => text :: appended rest
  | _ :: rest => appended rest

/-- The CPU amounts carried by the actions of every pushed transaction of a
trace, one list per `PushTransaction` call. -/
def pushedCpu : List Event → List (List Int)
  | [] => []
  | .pushTransaction _ actions _ :: rest => actions.map Action.cpuAmount :: pushedCpu rest
  | _ :: rest => pushedCpu rest

/-- The sum of the CPU amounts of the actions of one transaction per chunk. -/
def plannedCpu (cfg : Config) (cpuAsset netAsset : Asset) (chunks : List (List String)) : Int :=
  (chunks.map (fun chunk =>
    ((chunkActions cfg cpuAsset netAsset chunk).map Action.cpuAmount).sum)).sum

/-! ## Predicates used by the statements -/

/-- The list `chunks` cuts `l` into consecutive pieces of `c` elements, the last
one possibly shorter: the pieces are non-empty, hold at most `c` elements, all
but the last hold exactly `c`, there are `⌈len l / c⌉` of them and their
concatenation is `l`. -/
def Partitions (c : Nat) (l : List String) (chunks : List (List String)) : Prop :=
  chunks.flatten = l ∧
  chunks.length = (l.length + c - 1) / c ∧
  (∀ chunk ∈ chunks, chunk ≠ [] ∧ chunk.length ≤ c) ∧
  (∀ chunk ∈ chunks.dropLast, chunk.length = c)

/-- The events `pre` that precede a write of chunk `i` show that the chunk was
confirmed: they hold a snapshot read of `firstAcc` for chunk `i`, preceded by no
event of chunk `i` (so by no push of it), then only builds, pushes and validation
reads equal to the snapshot weight, then a validation read of `firstAcc` whose
weight differs from the snapshot, and after it only writes of chunk `i`. -/
def Confirmed (pre : List Event) (i : Nat) (firstAcc : String) : Prop :=
  ∃ (was now : Int) (before between after : List Event),
    pre = before ++ (Event.snapshot i firstAcc (some was) ::
      (between ++ (Event.validate i firstAcc (some now) :: after))) ∧
    now ≠ was ∧
    (∀ e ∈ before, e.chunk ≠ some i) ∧
    (∀ e ∈ between, e.unconfirmed i firstAcc was = true) ∧
    (∀ e ∈ after, e.isAppend = true ∧ e.chunk = some i)

/-! ## The retry cycles as the specification describes them -/

/-- The events the specification describes for one chunk after its snapshot, when
the validation reads return the snapshot weight `was` exactly `k` times and then
`now`: every cycle is one build and one push; an unchanged first read is followed
by a second read of the same push; an unchanged second read is followed by a new
cycle; the first changed read ends the chunk.  The builds meet `builds` in order. -/
def specCycles (i : Nat) (actions : List Action) (firstAcc : String) (was now : Int) :
    Nat → List Built → List Event
  | _, [] => []
  | 0, b :: _ =>
    [.makeAndSign i actions b, .pushTransaction i actions true,
      .validate i firstAcc (some now)]
  | 1, b :: _ =>
    [.makeAndSign i actions b, .pushTransaction i actions true,
      .validate i firstAcc (some was), .validate i firstAcc (some now)]
  | k + 2, b :: builds =>
    [.makeAndSign i actions b, .pushTransaction i actions true,
      .validate i firstAcc (some was), .validate i firstAcc (some was)]
      ++ specCycles i actions firstAcc was now k builds

/-- A ledger script for one chunk after its snapshot: `k` validation reads equal
to the snapshot weight `was` and then the read `now`, the builds `builds`, and
`k / 2 + 1` pushes that succeed; `rest` is what follows for the later chunks. -/
def cycleLedger (was now : Int) (k : Nat) (builds : List Built) (rest : Ledger) : Ledger :=
  { getAccount := List.replicate k (some was) ++ some now :: rest.getAccount
    makeAndSign := builds ++ rest.makeAndSign
    pushTransaction := List.replicate (k / 2 + 1) true ++ rest.pushTransaction }

/-- The ledger script of `cycleLedger` preceded by the snapshot read `was`. -/
def chunkScript (was now : Int) (k : Nat) (builds : List Built) (rest : Ledger) : Ledger :=
  { cycleLedger was now k builds rest with
    getAccount := some was :: (cycleLedger was now k builds rest).getAccount }

/-! ## Concrete inputs -/

/-- A configuration with chunk size 2 and a budget of 10.0 WAX. -/
def sampleConfig : Config :=
  { pkey := "5Kkey", account := "custodian", mode := "cpu", waxNode := "https://wax.node"
    chunkSize := 2, useBalanceInt64 := 1000000000 }

/-- Five accounts, standing for `A`, `B`, `C`, `D`, `E`. -/
def fiveAccounts : List String := ["acctA", "acctB", "acctC", "acctD", "acctE"]

/-- A configuration whose `use_balance` is `-1.0`. -/
def negativeConfig : Config :=
  { pkey := "5Kkey", account := "custodian", mode := "cpu", waxNode := "https://wax.node"
    chunkSize := 3, useBalanceInt64 := -100000000 }

/-- Three accounts, no `done.txt`, a custodian balance of zero and a ledger that
accepts the first push and shows a changed CPU weight at once. -/
def negativeEnv : Env :=
  { config := some negativeConfig
    accountsTxt := some ["acctA", "acctB", "acctC"]
    doneTxt := none
    createDone := true
    getCurrencyBalance := [0]
    ledger :=
      { getAccount := [some 10, some 11]
        makeAndSign := [{ fillRetries := 0, packOk := true }]
        pushTransaction := [true] } }

/-- No accounts: an empty `accounts.txt`, a custodian balance of zero and the
sample budget of 10.0 WAX. -/
def emptyPoorEnv : Env :=
  { config := some sampleConfig
    accountsTxt := some []
    doneTxt := some []
    createDone := true
    getCurrencyBalance := [0]
    ledger := { getAccount := [], makeAndSign := [], pushTransaction := [] } }

/-- No accounts and a custodian balance above the sample budget. -/
def emptyRichEnv : Env :=
  { emptyPoorEnv with getCurrencyBalance := [5000000000] }

/-- Five accounts and a custodian balance below the sample budget; the ledger
would accept every push. -/
def poorEnv : Env :=
  { config := some sampleConfig
    accountsTxt := some fiveAccounts
    doneTxt := none
    createDone := true
    getCurrencyBalance := [999999999]
    ledger :=
      { getAccount := [some 10, some 11]
        makeAndSign := [{ fillRetries := 0, packOk := true }]
        pushTransaction := [true] } }

/-- Three accounts, the sample budget of 10.0 WAX, a sufficient balance, and a
ledger that shows a changed CPU weight after the first push. -/
def threeEnv : Env :=
  { config := some { sampleConfig with chunkSize := 3 }
    accountsTxt := some ["acctA", "acctB", "acctC"]
    doneTxt := none
    createDone := true
    getCurrencyBalance := [1000000000]
    ledger :=
      { getAccount := [some 10, some 11]
        makeAndSign := [{ fillRetries := 0, packOk := true }]
        pushTransaction := [true] } }

/-- Accounts `A..E` with `A` in the progress log and chunk size 2; the first chunk
is confirmed by the read after its second push, the second chunk by the first
read after its push, and the push of the third chunk fails. -/
def sampleRunEnv : Env :=
  { config := some sampleConfig
    accountsTxt := some fiveAccounts
    doneTxt := some ["acctA"]
    createDone := true
    getCurrencyBalance := [1000000000]
    ledger :=
      { getAccount := [some 10, some 10, some 10, some 12, some 5, some 6, some 7]
        makeAndSign := [{ fillRetries := 0, packOk := true }, { fillRetries := 2, packOk := true },
          { fillRetries := 0, packOk := true }, { fillRetries := 0, packOk := true }]
        pushTransaction := [true, true, true, false] } }

/-- Two builds that succeed, the second after one failed `FillFromChain`. -/
def twoBuilds : List Built :=
  [{ fillRetries := 0, packOk := true }, { fillRetries := 1, packOk := true }]

/-- A ledger with no answers left. -/
def emptyLedger : Ledger := { getAccount := [], makeAndSign := [], pushTransaction := [] }

end Staker

/-! # Theorems -/

namespace Staker

/-! ## Machine integers -/

theorem wrap64_of_inInt64 {x : Int} (h : inInt64 x) : wrap64 x = x := by
  unfold inInt64 at h
  unfold wrap64
  norm_num at h ⊢
  omega

/-- The truncated quotient of an `int64` by a positive count is an `int64`. -/
theorem tdiv_inInt64 (budget : Int) (n : Nat) (hrange : inInt64 budget) (hn : 0 < n) :
    inInt64 (Int.tdiv budget n) := by
  unfold inInt64 at *
  have hnI : (0 : Int) < (n : Int) := by exact_mod_cast hn
  rcases le_or_lt 0 budget with h | h
  · rw [Int.tdiv_eq_ediv h hnI.le]
    have h1 : 0 ≤ budget / (n : Int) := Int.ediv_nonneg h hnI.le
    have h2 : budget / (n : Int) ≤ budget := Int.ediv_le_self _ h
    constructor
    · have : -(2 : Int) ^ 63 ≤ 0 := by norm_num
      omega
    · omega
  · have hneg : Int.tdiv budget n = -((-budget) / (n : Int)) := by
      have := Int.neg_tdiv (-budget) (n : Int)
      rw [neg_neg] at this
      rw [this, Int.tdiv_eq_ediv (by omega) hnI.le]
    rw [hneg]
    have h1 : 0 ≤ (-budget) / (n : Int) := Int.ediv_nonneg (by omega) hnI.le
    have h2 : (-budget) / (n : Int) ≤ -budget := Int.ediv_le_self _ (by omega)
    constructor
    · omega
    · have : (0 : Int) < 2 ^ 63 := by norm_num
      omega

/-- The quotient computed by `divInt64` for a dividend in `int64` and a positive
count: the floor of the exact quotient for a dividend that is not negative, its
ceiling for a negative one. -/
theorem divInt64_quotient (budget : Int) (n : Nat) (hrange : inInt64 budget)
    (hn : 0 < n) :
    ∃ perAccount : Int, divInt64 budget n = some perAccount ∧
      (0 ≤ budget → perAccount = ⌊(budget : ℚ) / (n : ℚ)⌋ ∧ perAccount * n ≤ budget) ∧
      (budget < 0 → perAccount = ⌈(budget : ℚ) / (n : ℚ)⌉ ∧ budget ≤ perAccount * n) := by
  have hnI : (0 : Int) < (n : Int) := by exact_mod_cast hn
  have hne : (n : Int) ≠ 0 := by omega
  refine ⟨Int.tdiv budget n, ?_, ?_, ?_⟩
  · unfold divInt64
    rw [if_neg hne, wrap64_of_inInt64 (tdiv_inInt64 budget n hrange hn)]
  · intro h
    rw [Int.tdiv_eq_ediv h hnI.le]
    exact ⟨(Rat.floor_intCast_div_natCast budget n).symm, Int.ediv_mul_le _ hne⟩
  · intro h
    have hneg : Int.tdiv budget n = -((-budget) / (n : Int)) := by
      have := Int.neg_tdiv (-budget) (n : Int)
      rw [neg_neg] at this
      rw [this, Int.tdiv_eq_ediv (by omega) hnI.le]
    rw [hneg]
    constructor
    · have hfl := Rat.floor_intCast_div_natCast (-budget) n
      rw [← hfl]
      have : ((budget : ℚ) / (n : ℚ)) = -((((-budget : Int) : ℚ)) / (n : ℚ)) := by
        push_cast; ring
      rw [this, Int.ceil_neg]
    · have := Int.ediv_mul_le (-budget) hne
      linarith

/-! ## The function `remove` and the pass over `done.txt` -/

theorem rangeFind_bounds (e : String) :
    ∀ (s : List String) (i j : Nat), rangeFind e s i = some j → i ≤ j ∧ j < i + s.length := by
  intro s
  induction s with
  | nil => intro i j h; simp [rangeFind] at h
  | cons a rest ih =>
    intro i j h
    unfold rangeFind at h
    split at h
    · simp at h; subst h; simp
    · have := ih (i + 1) j h
      simp only [List.length_cons]
      omega

theorem remove_caller_length (s : List String) (e : String) :
    (remove s e).caller.length = s.length := by
  unfold remove
  split
  · rename_i i hi
    have hb := rangeFind_bounds e s 0 i hi
    simp only [appendInPlace, List.length_append, List.length_take, List.length_drop]
    omega
  · rfl

theorem remove_caller_getLast (s : List String) (e : String) :
    (remove s e).caller.getLast? = s.getLast? := by
  unfold remove
  split
  · rename_i i hi
    have hb := rangeFind_bounds e s 0 i hi
    have hlen : i + (List.drop (i + 1) s).length = s.length - 1 := by
      simp only [List.length_drop]; omega
    simp only [appendInPlace, hlen]
    rw [List.getLast?_append, List.getLast?_drop]
    have : ¬ s.length ≤ s.length - 1 := by omega
    simp [this]
    cases h : s.getLast? with
    | none => simp [List.getLast?_eq_none_iff] at h; subst h; simp at hb
    | some x => simp
  · rfl

theorem donePass_length (doneLines : List String) :
    ∀ accounts : List String, (donePass accounts doneLines).length = accounts.length := by
  induction doneLines with
  | nil => intro accounts; rfl
  | cons line rest ih =>
    intro accounts
    simp only [donePass, List.foldl_cons] at ih ⊢
    rw [ih]
    split
    · exact remove_caller_length accounts line
    · rfl

theorem donePass_getLast (doneLines : List String) :
    ∀ accounts : List String, (donePass accounts doneLines).getLast? = accounts.getLast? := by
  induction doneLines with
  | nil => intro accounts; rfl
  | cons line rest ih =>
    intro accounts
    simp only [donePass, List.foldl_cons] at ih ⊢
    rw [ih]
    split
    · exact remove_caller_getLast accounts line
    · rfl

/-! ## The chunking loop -/

theorem partitions_nil (c : Nat) (hc : 0 < c) : Partitions c [] [] := by
  refine ⟨rfl, ?_, ?_, ?_⟩
  · simp only [List.length_nil, Nat.zero_add]
    exact (Nat.div_eq_of_lt (by omega)).symm
  · intro chunk h; simp at h
  · intro chunk h; simp at h

theorem partitions_last (c : Nat) (l : List String) (h0 : l ≠ []) (hlt : l.length < c) :
    Partitions c l [l] := by
  have hpos : 0 < l.length := List.length_pos.mpr h0
  refine ⟨by simp, ?_, ?_, ?_⟩
  · simp only [List.length_singleton]
    symm
    apply Nat.div_eq_of_lt_le <;> omega
  · intro chunk h
    simp only [List.mem_singleton] at h
    subst h
    exact ⟨h0, by omega⟩
  · intro chunk h; simp at h

theorem partitions_cons (c : Nat) (hc : 0 < c) (l : List String) (hle : c ≤ l.length)
    (rest : List (List String)) (h : Partitions c (l.drop c) rest) :
    Partitions c l (l.take c :: rest) := by
  obtain ⟨hflat, hlen, hall, hfull⟩ := h
  have htake : (l.take c).length = c := by simp [List.length_take]; omega
  refine ⟨?_, ?_, ?_, ?_⟩
  · simp only [List.flatten_cons, hflat, List.take_append_drop]
  · simp only [List.length_cons, hlen, List.length_drop]
    have : l.length + c - 1 = (l.length - c + c - 1) + c := by omega
    rw [this, Nat.add_div_right _ hc]
  · intro chunk hmem
    simp only [List.mem_cons] at hmem
    rcases hmem with rfl | hmem
    · refine ⟨?_, by omega⟩
      intro hnil
      rw [hnil] at htake
      simp at htake
      omega
    · exact hall chunk hmem
  · intro chunk hmem
    cases rest with
    | nil => simp at hmem
    | cons r rs =>
      simp only [List.dropLast_cons₂, List.mem_cons] at hmem
      rcases hmem with rfl | hmem
      · exact htake
      · exact hfull chunk hmem

/-- The chunking loop from position `k`, for a positive chunk size `c`, under the
invariant that `k + c` does not overflow while `k` is inside the list: with more
fuel than remaining accounts it ends and adds a partition of `accounts[k:]`. -/
theorem chunkLoop_partitions (accounts : List String) (c : Nat) (hc : 0 < c)
    (hN : accounts.length ≤ 2 ^ 62) :
    ∀ (m k : Nat), accounts.length - k ≤ m →
      (k < accounts.length → k + c < 2 ^ 63) →
      ∃ added, Partitions c (accounts.drop k) added ∧
        ∀ (fuel : Nat) (chunks : List (List String)), m < fuel →
          chunkLoop accounts (c : Int) fuel (k : Int) chunks = .done (chunks ++ added) := by
  intro m
  induction m with
  | zero =>
    intro k hm _
    have hk : ¬ ((k : Int) < (accounts.length : Int)) := by omega
    refine ⟨[], ?_, ?_⟩
    · have : accounts.drop k = [] := List.drop_eq_nil_iff.mpr (by omega)
      rw [this]
      exact partitions_nil c hc
    · intro fuel chunks hfuel
      obtain ⟨f, rfl⟩ : ∃ f, fuel = f + 1 := ⟨fuel - 1, by omega⟩
      simp [chunkLoop, hk]
  | succ m ih =>
    intro k hm hinv
    by_cases hk : k < accounts.length
    · have hsum := hinv hk
      have hkI : ((k : Int) < (accounts.length : Int)) := by omega
      have hj : wrap64 ((k : Int) + (c : Int)) = ((k + c : Nat) : Int) := by
        rw [wrap64_of_inInt64]
        · push_cast; rfl
        · unfold inInt64
          constructor
          · have : (0 : Int) ≤ (k : Int) + (c : Int) := by omega
            have h2 : -(2 : Int) ^ 63 ≤ 0 := by norm_num
            omega
          · have : ((k + c : Nat) : Int) < ((2 ^ 63 : Nat) : Int) := by exact_mod_cast hsum
            push_cast at this
            exact this
      have hk0 : (0 : Int) ≤ (k : Int) := by omega
      by_cases hover : accounts.length < k + c
      · have hoverI : ((k + c : Nat) : Int) > (accounts.length : Int) := by omega
        obtain ⟨added, hpart, hrun⟩ := ih (k + c) (by omega) (by omega)
        have hnil : accounts.drop (k + c) = [] := List.drop_eq_nil_iff.mpr (by omega)
        rw [hnil] at hpart
        have hadded : added = [] := by
          have hl := hpart.2.1
          simp only [List.length_nil, Nat.zero_add] at hl
          rw [Nat.div_eq_of_lt (by omega)] at hl
          exact List.length_eq_zero.mp hl
        subst hadded
        refine ⟨[accounts.drop k], ?_, ?_⟩
        · apply partitions_last
          · intro h
            have := List.drop_eq_nil_iff.mp h
            omega
          · simp only [List.length_drop]; omega
        · intro fuel chunks hfuel
          obtain ⟨f, rfl⟩ : ∃ f, fuel = f + 1 := ⟨fuel - 1, by omega⟩
          unfold chunkLoop
          simp only [hkI, hj, hoverI, hk0, if_true, Int.toNat_ofNat]
          simpa using hrun f (chunks ++ [accounts.drop k]) (by omega)
      · have hoverI : ¬ (((k + c : Nat) : Int) > (accounts.length : Int)) := by omega
        have hkj : (0 : Int) ≤ (k : Int) ∧ (k : Int) ≤ ((k + c : Nat) : Int) := by omega
        obtain ⟨added, hpart, hrun⟩ :=
          ih (k + c) (by omega) (by
              intro hlt
              have : (2 : Nat) ^ 63 = 2 ^ 62 + 2 ^ 62 := by norm_num
              omega)
        have hchunk : (accounts.take (k + c)).drop k = (accounts.drop k).take c := by
          rw [List.take_drop]
        refine ⟨(accounts.drop k).take c :: added, ?_, ?_⟩
        · apply partitions_cons c hc
          · simp only [List.length_drop]; omega
          · rw [List.drop_drop]
            exact hpart
        · intro fuel chunks hfuel
          obtain ⟨f, rfl⟩ : ∃ f, fuel = f + 1 := ⟨fuel - 1, by omega⟩
          unfold chunkLoop
          simp only [hkI, hj, hoverI, hkj, if_true, if_false, and_self, Int.toNat_ofNat]
          rw [hrun f _ (by omega), hchunk]
          simp
    · have hkI : ¬ ((k : Int) < (accounts.length : Int)) := by omega
      refine ⟨[], ?_, ?_⟩
      · have : accounts.drop k = [] := List.drop_eq_nil_iff.mpr (by omega)
        rw [this]
        exact partitions_nil c hc
      · intro fuel chunks hfuel
        obtain ⟨f, rfl⟩ : ∃ f, fuel = f + 1 := ⟨fuel - 1, by omega⟩
        simp [chunkLoop, hkI]

/-- For a chunk size in `1 .. 2^63 - 1` and at most `2^62` accounts, the chunking
loop of `main` ends, with any fuel above the number of accounts, in a partition
of the account list. -/
theorem makeChunks_partitions (accounts : List String) (chunkSize : Int)
    (hpos : 0 < chunkSize) (hmax : chunkSize < 2 ^ 63) (hN : accounts.length ≤ 2 ^ 62) :
    ∃ chunks, Partitions chunkSize.toNat accounts chunks ∧
      ∀ fuel, accounts.length < fuel → makeChunks accounts chunkSize fuel = .done chunks := by
  obtain ⟨c, rfl⟩ : ∃ c : Nat, chunkSize = (c : Int) := ⟨chunkSize.toNat, by omega⟩
  have hc : 0 < c := by omega
  have hc63 : c < 2 ^ 63 := by exact_mod_cast hmax
  obtain ⟨added, hpart, hrun⟩ := chunkLoop_partitions accounts c hc hN accounts.length 0
    (by omega) (by intro _; omega)
  refine ⟨added, by simpa using hpart, ?_⟩
  intro fuel hfuel
  have := hrun fuel [] hfuel
  simpa [makeChunks] using this

/-- The chunking loop stops only by running out of fuel or by a slice out of
bounds. -/
theorem chunkLoop_stopped (accounts : List String) (chunkSize : Int) :
    ∀ (fuel : Nat) (i : Int) (chunks : List (List String)) (o : Outcome),
      chunkLoop accounts chunkSize fuel i chunks = .stopped o →
        o = .running ∨ o = .panicBounds := by
  intro fuel
  induction fuel with
  | zero =>
    intro i chunks o h
    simp [chunkLoop] at h
    exact Or.inl h.symm
  | succ f ih =>
    intro i chunks o h
    unfold chunkLoop at h
    split at h
    · simp only at h
      split at h
      · split at h
        · exact ih _ _ o h
        · simp at h; exact Or.inr h.symm
      · split at h
        · exact ih _ _ o h
        · simp at h; exact Or.inr h.symm
    · simp at h

/-- Without accounts the chunking loop yields no chunk, whatever the chunk size. -/
theorem makeChunks_nil (chunkSize : Int) (fuel : Nat) (chunks : List (List String))
    (h : makeChunks [] chunkSize fuel = .done chunks) : chunks = [] := by
  cases fuel with
  | zero => simp [makeChunks, chunkLoop] at h
  | succ f =>
    simp [makeChunks, chunkLoop] at h
    exact h

/-- A negative chunk size makes the first slice expression of the chunking loop
panic, as soon as there is an account. -/
theorem makeChunks_negative (accounts : List String) (chunkSize : Int) (fuel : Nat)
    (hneg : chunkSize < 0) (hrange : inInt64 chunkSize) (hne : accounts ≠ []) :
    makeChunks accounts chunkSize (fuel + 1) = .stopped .panicBounds := by
  have hlen : (0 : Int) < (accounts.length : Int) := by
    have := List.length_pos.mpr hne
    omega
  have hj : wrap64 (0 + chunkSize) = chunkSize := by
    rw [Int.zero_add]
    exact wrap64_of_inInt64 hrange
  have h1 : ¬ (chunkSize > (accounts.length : Int)) := by omega
  have h2 : ¬ ((0 : Int) ≤ 0 ∧ (0 : Int) ≤ chunkSize) := by omega
  simp only [makeChunks, chunkLoop, hlen, hj, h1, h2, if_true, if_false]

theorem getLast_flatten_of_nonempty (chunks : List (List String))
    (h : ∀ chunk ∈ chunks, chunk ≠ []) :
    chunks.flatten.getLast? = chunks.getLast?.bind List.getLast? := by
  induction chunks with
  | nil => rfl
  | cons c rest ih =>
    have ihr := ih (fun chunk hm => h chunk (List.mem_cons_of_mem _ hm))
    cases rest with
    | nil => simp
    | cons r rs =>
      rw [List.flatten_cons, List.getLast?_append, ihr]
      have hr : (r :: rs).getLast? = some ((r :: rs).getLast (by simp)) :=
        List.getLast?_eq_getLast _ _
      have hne : (r :: rs).getLast (by simp) ≠ [] :=
        h _ (List.mem_cons_of_mem _ (List.getLast_mem _))
      rw [List.getLast?_cons_cons, hr]
      simp only [Option.some_bind]
      cases hl : ((r :: rs).getLast (by simp)).getLast? with
      | none => exact absurd (List.getLast?_eq_none_iff.mp hl) hne
      | some x => simp

theorem ceil_div_eq (n c : Nat) (hc : 0 < c) :
    (((n + c - 1) / c : Nat) : Int) = ⌈(n : ℚ) / (c : ℚ)⌉ := by
  symm
  rw [Int.ceil_eq_iff]
  have hcq : (0 : ℚ) < c := by exact_mod_cast hc
  have h1 := Nat.div_mul_le_self (n + c - 1) c
  have h2 := Nat.lt_div_mul_add (a := n + c - 1) hc
  set q := (n + c - 1) / c
  constructor
  · rw [lt_div_iff₀ hcq]
    have : ((q : Int) - 1) * c < n := by
      have : q * c < n + c := by omega
      zify at this
      linarith
    exact_mod_cast this
  · rw [div_le_iff₀ hcq]
    have : n ≤ q * c := by omega
    exact_mod_cast this

/-! ## The per-chunk loop -/

@[simp] theorem emit_trace (e : Event) (r : ChunkRun) : (r.emit e).trace = e :: r.trace := rfl

@[simp] theorem emit_ending (e : Event) (r : ChunkRun) : (r.emit e).ending = r.ending := rfl

theorem unconfirmed_chunk {i : Nat} {firstAcc : String} {was : Int} {e : Event}
    (h : e.unconfirmed i firstAcc was = true) :
    e.chunk = some i ∧ e.isAppend = false ∧ e.isSnapshot = false := by
  cases e <;> simp_all [Event.unconfirmed, Event.chunk, Event.isAppend, Event.isSnapshot]

/-- The shape of the events of one chunk after its snapshot.  When the loop
reaches "Transaction validated." its last event is a validation read that differs
from the snapshot and every earlier event is a build, a push or a read equal to
the snapshot; when it stops otherwise it has emitted builds, pushes and
validation reads of this chunk only. -/
theorem engine_shape (cfg : Config) (cpuAsset netAsset : Asset) (i : Nat)
    (chunk : List String) (firstAcc : String) (was : Int) :
    ∀ (fuel : Nat) (label : Label) (fv : Bool) (led : Ledger),
      (∀ rest, (engine cfg cpuAsset netAsset i chunk firstAcc was fuel label fv led).ending
          = .validated rest →
        ∃ body now,
          (engine cfg cpuAsset netAsset i chunk firstAcc was fuel label fv led).trace
            = body ++ [.validate i firstAcc (some now)] ∧
          now ≠ was ∧ ∀ e ∈ body, e.unconfirmed i firstAcc was = true) ∧
      (∀ e ∈ (engine cfg cpuAsset netAsset i chunk firstAcc was fuel label fv led).trace,
        e.chunk = some i ∧ e.isAppend = false ∧ e.isSnapshot = false) := by
  intro fuel
  induction fuel with
  | zero =>
    intro label fv led
    simp [engine]
  | succ f ih =>
    intro label fv led
    cases label with
    | retry =>
      unfold engine
      rcases hb : led.makeAndSign with _ | ⟨b, builds⟩
      · simp
      · by_cases hp : b.packOk = true
        · rcases hpush : led.pushTransaction with _ | ⟨ok, pushes⟩
          · simp [hp, Event.chunk, Event.isAppend, Event.isSnapshot]
          · cases ok with
            | false => simp [hp, Event.chunk, Event.isAppend, Event.isSnapshot]
            | true =>
              simp only [hp, if_true, emit_trace, emit_ending]
              obtain ⟨ih1, ih2⟩ := ih .retryValidate true
                { led with makeAndSign := builds, pushTransaction := pushes }
              constructor
              · intro rest hrest
                obtain ⟨body, now, htr, hne, hbody⟩ := ih1 rest hrest
                refine ⟨Event.makeAndSign i (chunkActions cfg cpuAsset netAsset chunk) b ::
                  Event.pushTransaction i (chunkActions cfg cpuAsset netAsset chunk) true ::
                    body, now, ?_, hne, ?_⟩
                · rw [htr]; rfl
                · intro e he
                  simp only [List.mem_cons] at he
                  rcases he with rfl | rfl | he
                  · simp [Event.unconfirmed]
                  · simp [Event.unconfirmed]
                  · exact hbody e he
              · intro e he
                simp only [List.mem_cons] at he
                rcases he with rfl | rfl | he
                · simp [Event.chunk, Event.isAppend, Event.isSnapshot]
                · simp [Event.chunk, Event.isAppend, Event.isSnapshot]
                · exact ih2 e he
        · simp [hp, Event.chunk, Event.isAppend, Event.isSnapshot]
    | retryValidate =>
      unfold engine
      rcases ha : led.getAccount with _ | ⟨answer, answers⟩
      · simp
      · cases answer with
        | none => simp [Event.chunk, Event.isAppend, Event.isSnapshot]
        | some now =>
          by_cases hnow : now = was
          · subst hnow
            have key : ∀ label2,
                (∀ rest, ((engine cfg cpuAsset netAsset i chunk firstAcc now f label2 false
                    { led with getAccount := answers }).emit
                      (.validate i firstAcc (some now))).ending = .validated rest →
                  ∃ body now2,
                    ((engine cfg cpuAsset netAsset i chunk firstAcc now f label2 false
                      { led with getAccount := answers }).emit
                        (.validate i firstAcc (some now))).trace
                      = body ++ [.validate i firstAcc (some now2)] ∧
                    now2 ≠ now ∧ ∀ e ∈ body, e.unconfirmed i firstAcc now = true) ∧
                (∀ e ∈ ((engine cfg cpuAsset netAsset i chunk firstAcc now f label2 false
                    { led with getAccount := answers }).emit
                      (.validate i firstAcc (some now))).trace,
                  e.chunk = some i ∧ e.isAppend = false ∧ e.isSnapshot = false) := by
              intro label2
              obtain ⟨ih1, ih2⟩ := ih label2 false { led with getAccount := answers }
              simp only [emit_trace, emit_ending]
              constructor
              · intro rest hrest
                obtain ⟨body, now2, htr, hne, hbody⟩ := ih1 rest hrest
                refine ⟨Event.validate i firstAcc (some now) :: body, now2, ?_, hne, ?_⟩
                · rw [htr]; rfl
                · intro e he
                  simp only [List.mem_cons] at he
                  rcases he with rfl | he
                  · simp [Event.unconfirmed]
                  · exact hbody e he
              · intro e he
                simp only [List.mem_cons] at he
                rcases he with rfl | he
                · simp [Event.chunk, Event.isAppend, Event.isSnapshot]
                · exact ih2 e he
            cases fv with
            | true => simpa using key .retryValidate
            | false => simpa using key .retry
          · simp only [hnow, if_false]
            constructor
            · intro rest _
              exact ⟨[], now, rfl, hnow, by simp⟩
            · simp [Event.chunk, Event.isAppend, Event.isSnapshot]

/-- The per-chunk loop never ends the process with status 0. -/
theorem engine_stopped_outcome (cfg : Config) (cpuAsset netAsset : Asset) (i : Nat)
    (chunk : List String) (firstAcc : String) (was : Int) :
    ∀ (fuel : Nat) (label : Label) (fv : Bool) (led : Ledger) (o : Outcome),
      (engine cfg cpuAsset netAsset i chunk firstAcc was fuel label fv led).ending
          = .stopped o →
        o = .running ∨ o = .exit 1 ∨ o = .panicPack := by
  intro fuel
  induction fuel with
  | zero =>
    intro label fv led o h
    simp [engine] at h
    exact Or.inl h.symm
  | succ f ih =>
    intro label fv led o h
    cases label with
    | retry =>
      unfold engine at h
      rcases hb : led.makeAndSign with _ | ⟨b, builds⟩
      · simp [hb] at h; exact Or.inl h.symm
      · by_cases hp : b.packOk = true
        · rcases hpush : led.pushTransaction with _ | ⟨ok, pushes⟩
          · simp [hb, hp, hpush] at h; exact Or.inl h.symm
          · cases ok with
            | false => simp [hb, hp, hpush] at h; exact Or.inr (Or.inl h.symm)
            | true =>
              simp only [hb, hp, hpush, if_true, emit_ending] at h
              exact ih _ _ _ o h
        · simp [hb, hp] at h; exact Or.inr (Or.inr h.symm)
    | retryValidate =>
      unfold engine at h
      rcases ha : led.getAccount with _ | ⟨answer, answers⟩
      · simp [ha] at h; exact Or.inl h.symm
      · cases answer with
        | none => simp [ha] at h; exact Or.inr (Or.inl h.symm)
        | some now =>
          by_cases hnow : now = was
          · cases fv with
            | true =>
              simp only [ha, hnow, if_true, emit_ending] at h
              exact ih _ _ _ o h
            | false =>
              simp only [ha, hnow, if_true, emit_ending] at h
              exact ih _ _ _ o (by simpa using h)
          · simp [ha, hnow] at h

theorem getLast_cons_of_some {e a : Event} {l : List Event} (h : l.getLast? = some e) :
    (a :: l).getLast? = some e := by
  cases l with
  | nil => simp at h
  | cons b l => rw [List.getLast?_cons_cons]; exact h

theorem getLast_append_of_some {e : Event} {l m : List Event} (h : m.getLast? = some e) :
    (l ++ m).getLast? = some e := by
  rw [List.getLast?_append, h]
  simp

theorem isFatal_chunk {e : Event} (h : e.isFatal = true) : e.chunk ≠ none := by
  cases e <;> simp_all [Event.isFatal, Event.chunk]

theorem isFatal_not_append {e : Event} (h : e.isAppend = true) : e.isFatal = false := by
  cases e <;> simp_all [Event.isFatal, Event.isAppend]

/-- A chunk that reaches "Transaction validated." has met no failing call; a chunk
whose processing ends the process with status 1 or with the panic of
`MakeAndSignTransaction` has a failing call as its last event. -/
theorem engine_fatal (cfg : Config) (cpuAsset netAsset : Asset) (i : Nat)
    (chunk : List String) (firstAcc : String) (was : Int) :
    ∀ (fuel : Nat) (label : Label) (fv : Bool) (led : Ledger),
      (∀ rest, (engine cfg cpuAsset netAsset i chunk firstAcc was fuel label fv led).ending
          = .validated rest →
        ∀ e ∈ (engine cfg cpuAsset netAsset i chunk firstAcc was fuel label fv led).trace,
          e.isFatal = false) ∧
      (∀ o, (engine cfg cpuAsset netAsset i chunk firstAcc was fuel label fv led).ending
          = .stopped o → (o = .exit 1 ∨ o = .panicPack) →
        ∃ e, (engine cfg cpuAsset netAsset i chunk firstAcc was fuel label fv led).trace.getLast?
          = some e ∧ e.isFatal = true) := by
  intro fuel
  induction fuel with
  | zero =>
    intro label fv led
    simp [engine]
  | succ f ih =>
    intro label fv led
    cases label with
    | retry =>
      unfold engine
      rcases hb : led.makeAndSign with _ | ⟨b, builds⟩
      · simp
      · by_cases hp : b.packOk = true
        · rcases hpush : led.pushTransaction with _ | ⟨ok, pushes⟩
          · simp [hp]
          · cases ok with
            | false => simp [hp, Event.isFatal]
            | true =>
              simp only [hp, if_true, emit_trace, emit_ending]
              obtain ⟨ih1, ih2⟩ := ih .retryValidate true
                { led with makeAndSign := builds, pushTransaction := pushes }
              constructor
              · intro rest hrest e he
                simp only [List.mem_cons] at he
                rcases he with rfl | rfl | he
                · simp [Event.isFatal, hp]
                · simp [Event.isFatal]
                · exact ih1 rest hrest e he
              · intro o ho hfatal
                obtain ⟨e, hlast, hf⟩ := ih2 o ho hfatal
                exact ⟨e, getLast_cons_of_some (getLast_cons_of_some hlast), hf⟩
        · simp [hp, Event.isFatal]
    | retryValidate =>
      unfold engine
      rcases ha : led.getAccount with _ | ⟨answer, answers⟩
      · simp
      · cases answer with
        | none => simp [Event.isFatal]
        | some now =>
          by_cases hnow : now = was
          · have key : ∀ label2,
                (∀ rest, ((engine cfg cpuAsset netAsset i chunk firstAcc was f label2 false
                    { led with getAccount := answers }).emit
                      (.validate i firstAcc (some now))).ending = .validated rest →
                  ∀ e ∈ ((engine cfg cpuAsset netAsset i chunk firstAcc was f label2 false
                    { led with getAccount := answers }).emit
                      (.validate i firstAcc (some now))).trace, e.isFatal = false) ∧
                (∀ o, ((engine cfg cpuAsset netAsset i chunk firstAcc was f label2 false
                    { led with getAccount := answers }).emit
                      (.validate i firstAcc (some now))).ending = .stopped o →
                  (o = .exit 1 ∨ o = .panicPack) →
                  ∃ e, ((engine cfg cpuAsset netAsset i chunk firstAcc was f label2 false
                    { led with getAccount := answers }).emit
                      (.validate i firstAcc (some now))).trace.getLast? = some e ∧
                    e.isFatal = true) := by
              intro label2
              obtain ⟨ih1, ih2⟩ := ih label2 false { led with getAccount := answers }
              simp only [emit_trace, emit_ending]
              constructor
              · intro rest hrest e he
                simp only [List.mem_cons] at he
                rcases he with rfl | he
                · simp [Event.isFatal]
                · exact ih1 rest hrest e he
              · intro o ho hfatal
                obtain ⟨e, hlast, hf⟩ := ih2 o ho hfatal
                exact ⟨e, getLast_cons_of_some hlast, hf⟩
            cases fv with
            | true => simpa [hnow] using key .retryValidate
            | false => simpa [hnow] using key .retry
          · simp [hnow, Event.isFatal]

theorem engine_pushes (cfg : Config) (cpuAsset netAsset : Asset) (i : Nat)
    (chunk : List String) (firstAcc : String) (was : Int) :
    ∀ (fuel : Nat) (label : Label) (fv : Bool) (led : Ledger) (j : Nat)
      (actions : List Action) (ok : Bool),
      Event.pushTransaction j actions ok
          ∈ (engine cfg cpuAsset netAsset i chunk firstAcc was fuel label fv led).trace →
        actions = chunkActions cfg cpuAsset netAsset chunk := by
  intro fuel
  induction fuel with
  | zero => intro label fv led j actions ok h; simp [engine] at h
  | succ f ih =>
    intro label fv led j actions ok h
    cases label with
    | retry =>
      unfold engine at h
      rcases hb : led.makeAndSign with _ | ⟨b, builds⟩
      · simp [hb] at h
      · by_cases hp : b.packOk = true
        · rcases hpush : led.pushTransaction with _ | ⟨ok2, pushes⟩
          · simp [hb, hp, hpush] at h
          · cases ok2 with
            | false =>
              simp [hb, hp, hpush] at h
              exact h.2.1
            | true =>
              simp only [hb, hp, hpush, if_true, emit_trace, List.mem_cons] at h
              rcases h with h | h | h
              · simp at h
              · simp only [Event.pushTransaction.injEq] at h
                exact h.2.1
              · exact ih _ _ _ j actions ok h
        · simp [hb, hp] at h
    | retryValidate =>
      unfold engine at h
      rcases ha : led.getAccount with _ | ⟨answer, answers⟩
      · simp [ha] at h
      · cases answer with
        | none => simp [ha] at h
        | some now =>
          by_cases hnow : now = was
          · cases fv with
            | true =>
              simp only [ha, hnow, if_true, emit_trace, List.mem_cons] at h
              rcases h with h | h
              · simp at h
              · exact ih _ _ _ j actions ok h
            | false =>
              simp only [ha, hnow, if_true, Bool.false_eq_true, if_false, emit_trace,
                List.mem_cons] at h
              rcases h with h | h
              · simp at h
              · exact ih _ _ _ j actions ok h
          · simp [ha, hnow] at h

/-! ## Retry cycles -/

theorem specCycles_counts (i : Nat) (actions : List Action) (firstAcc : String)
    (was now : Int) :
    ∀ (k : Nat) (builds : List Built), builds.length = k / 2 + 1 →
      (specCycles i actions firstAcc was now k builds).countP Event.isPush = k / 2 + 1 ∧
      (specCycles i actions firstAcc was now k builds).countP Event.isBuild = k / 2 + 1 ∧
      (∀ e ∈ specCycles i actions firstAcc was now k builds,
        (e.isPush = true → ∃ ok, e = .pushTransaction i actions ok) ∧
        (e.isBuild = true → ∃ b, e = .makeAndSign i actions b)) := by
  intro k
  induction k using Nat.twoStepInduction with
  | zero =>
    intro builds hlen
    obtain ⟨b, rfl⟩ : ∃ b, builds = [b] := List.length_eq_one.mp (by simpa using hlen)
    simp [specCycles, Event.isPush, Event.isBuild]
  | one =>
    intro builds hlen
    obtain ⟨b, rfl⟩ : ∃ b, builds = [b] := List.length_eq_one.mp (by simpa using hlen)
    simp [specCycles, Event.isPush, Event.isBuild]
  | more k ih _ =>
    intro builds hlen
    cases builds with
    | nil => simp at hlen
    | cons b bs =>
      have hbs : bs.length = k / 2 + 1 := by
        simp only [List.length_cons] at hlen
        omega
      obtain ⟨h1, h2, h3⟩ := ih bs hbs
      have hk : (k + 2) / 2 + 1 = (k / 2 + 1) + 1 := by omega
      refine ⟨?_, ?_, ?_⟩
      · rw [specCycles, List.countP_append, h1, hk]
        simp [List.countP_cons, Event.isPush]
        omega
      · rw [specCycles, List.countP_append, h2, hk]
        simp [List.countP_cons, Event.isBuild]
        omega
      · intro e he
        rw [specCycles] at he
        simp only [List.mem_append, List.mem_cons, List.mem_singleton, List.not_mem_nil,
          or_false] at he
        rcases he with (rfl | rfl | rfl | rfl) | he
        · simp [Event.isPush, Event.isBuild]
        · simp [Event.isPush, Event.isBuild]
        · simp [Event.isPush, Event.isBuild]
        · simp [Event.isPush, Event.isBuild]
        · exact h3 e he

/-- The per-chunk loop against a ledger whose validation reads equal the snapshot
`k` times and then differ: with enough fuel it emits the cycles of the
specification and reaches "Transaction validated.", leaving the rest of the
script. -/
theorem engine_cycles (cfg : Config) (cpuAsset netAsset : Asset) (i : Nat)
    (chunk : List String) (firstAcc : String) (was now : Int) (hne : now ≠ was)
    (rest : Ledger) :
    ∀ (k : Nat) (builds : List Built) (fuel : Nat) (fv : Bool),
      builds.length = k / 2 + 1 → (∀ b ∈ builds, b.packOk = true) →
      k + k / 2 + 2 ≤ fuel →
      engine cfg cpuAsset netAsset i chunk firstAcc was fuel .retry fv
          (cycleLedger was now k builds rest)
        = { trace := specCycles i (chunkActions cfg cpuAsset netAsset chunk) firstAcc was now
              k builds
            ending := .validated rest } := by
  intro k
  induction k using Nat.twoStepInduction with
  | zero =>
    intro builds fuel fv hlen hpack hfuel
    obtain ⟨b, rfl⟩ : ∃ b, builds = [b] := List.length_eq_one.mp (by simpa using hlen)
    obtain ⟨f, rfl⟩ : ∃ f, fuel = f + 2 := ⟨fuel - 2, by omega⟩
    have hb : b.packOk = true := hpack b (by simp)
    simp [engine, cycleLedger, specCycles, hb, hne, ChunkRun.emit]
  | one =>
    intro builds fuel fv hlen hpack hfuel
    obtain ⟨b, rfl⟩ : ∃ b, builds = [b] := List.length_eq_one.mp (by simpa using hlen)
    obtain ⟨f, rfl⟩ : ∃ f, fuel = f + 3 := ⟨fuel - 3, by omega⟩
    have hb : b.packOk = true := hpack b (by simp)
    simp [engine, cycleLedger, specCycles, hb, hne, ChunkRun.emit]
  | more k ih _ =>
    intro builds fuel fv hlen hpack hfuel
    cases builds with
    | nil => simp at hlen
    | cons b bs =>
      have hbs : bs.length = k / 2 + 1 := by
        simp only [List.length_cons] at hlen
        omega
      obtain ⟨f, rfl⟩ : ∃ f, fuel = f + 3 := ⟨fuel - 3, by omega⟩
      have hb : b.packOk = true := hpack b (by simp)
      have hk : (k + 2) / 2 + 1 = (k / 2 + 1) + 1 := by omega
      have step := ih bs f false hbs (fun b hb => hpack b (List.mem_cons_of_mem _ hb))
        (by omega)
      simp only [cycleLedger, List.replicate_succ, List.cons_append] at step
      simp only [engine, cycleLedger, hk, List.replicate_succ, List.cons_append, hb, if_true,
        specCycles]
      simp [step, ChunkRun.emit]

/-! ## Splitting a trace at an event -/

theorem split_after {p : Event → Bool} {x : Event} (hx : p x = true) :
    ∀ (A B pre post : List Event), (∀ e ∈ A, p e = false) →
      A ++ B = pre ++ x :: post → ∃ mid, pre = A ++ mid ∧ B = mid ++ x :: post := by
  intro A
  induction A with
  | nil => intro B pre post _ h; exact ⟨pre, rfl, h⟩
  | cons a A ih =>
    intro B pre post hA h
    cases pre with
    | nil =>
      simp only [List.cons_append, List.nil_append, List.cons.injEq] at h
      have := hA a (List.mem_cons_self _ _)
      rw [h.1, hx] at this
      exact absurd this (by simp)
    | cons y pre =>
      simp only [List.cons_append, List.cons.injEq] at h
      obtain ⟨mid, h1, h2⟩ := ih B pre post
        (fun e he => hA e (List.mem_cons_of_mem _ he)) h.2
      exact ⟨mid, by rw [h.1, h1]; rfl, h2⟩

theorem split_before {p : Event → Bool} {x : Event} (hx : p x = true) :
    ∀ (pre A B post : List Event), (∀ e ∈ B, p e = false) →
      A ++ B = pre ++ x :: post → ∃ tail, A = pre ++ x :: tail := by
  intro pre
  induction pre with
  | nil =>
    intro A B post hB h
    cases A with
    | nil =>
      simp only [List.nil_append] at h
      have := hB x (by rw [h]; exact List.mem_cons_self _ _)
      rw [hx] at this
      exact absurd this (by simp)
    | cons a A =>
      simp only [List.cons_append, List.nil_append, List.cons.injEq] at h
      exact ⟨A, by rw [h.1]; rfl⟩
  | cons y pre ih =>
    intro A B post hB h
    cases A with
    | nil =>
      simp only [List.nil_append] at h
      have := hB x (by rw [h]; simp)
      rw [hx] at this
      exact absurd this (by simp)
    | cons a A =>
      simp only [List.cons_append, List.cons.injEq] at h
      obtain ⟨tail, ht⟩ := ih A B post hB h.2
      exact ⟨tail, by rw [h.1, ht]; rfl⟩

theorem appended_append (A B : List Event) : appended (A ++ B) = appended A ++ appended B := by
  induction A with
  | nil => rfl
  | cons a A ih => cases a <;> simp [appended, ih]

theorem appended_of_no_append (A : List Event) (h : ∀ e ∈ A, e.isAppend = false) :
    appended A = [] := by
  induction A with
  | nil => rfl
  | cons a A ih =>
    have ha := h a (List.mem_cons_self _ _)
    have hA := ih (fun e he => h e (List.mem_cons_of_mem _ he))
    cases a <;> simp_all [appended, Event.isAppend]

theorem appended_appendChunk (i : Nat) (chunk : List String) :
    appended (appendChunk i chunk) = chunk.map (fun account => account ++ "\n") := by
  induction chunk with
  | nil => rfl
  | cons a chunk ih =>
    simp only [appendChunk, List.map_cons, appended] at ih ⊢
    rw [ih]

theorem appendChunk_events (i : Nat) (chunk : List String) :
    ∀ e ∈ appendChunk i chunk, e.isAppend = true ∧ e.chunk = some i := by
  intro e he
  simp only [appendChunk, List.mem_map] at he
  obtain ⟨a, _, rfl⟩ := he
  exact ⟨rfl, rfl⟩

theorem mem_pushedCpu (T : List Event) (amounts : List Int) (h : amounts ∈ pushedCpu T) :
    ∃ i actions ok, Event.pushTransaction i actions ok ∈ T ∧
      amounts = actions.map Action.cpuAmount := by
  induction T with
  | nil => simp [pushedCpu] at h
  | cons e T ih =>
    cases e with
    | pushTransaction i actions ok =>
      simp only [pushedCpu, List.mem_cons] at h
      rcases h with rfl | h
      · exact ⟨i, actions, ok, List.mem_cons_self _ _, rfl⟩
      · obtain ⟨j, acts, ok2, hm, he⟩ := ih h
        exact ⟨j, acts, ok2, List.mem_cons_of_mem _ hm, he⟩
    | _ =>
      simp only [pushedCpu] at h
      obtain ⟨j, acts, ok2, hm, he⟩ := ih h
      exact ⟨j, acts, ok2, List.mem_cons_of_mem _ hm, he⟩

/-! ## The loop over the chunks -/

/-- Every event of the loop from chunk `i0` on belongs to a chunk numbered at
least `i0`. -/
theorem processChunks_chunk_ge (cfg : Config) (cpuAsset netAsset : Asset) (fuel : Nat) :
    ∀ (chunks : List (List String)) (i0 : Nat) (led : Ledger),
      ∀ e ∈ (processChunks cfg cpuAsset netAsset fuel i0 chunks led).trace,
        ∃ j, e.chunk = some j ∧ i0 ≤ j := by
  intro chunks
  induction chunks with
  | nil => intro i0 led e he; simp [processChunks] at he
  | cons chunk rest ih =>
    intro i0 led e he
    unfold processChunks at he
    cases chunk with
    | nil => simp at he
    | cons firstAcc others =>
      simp only at he
      rcases ha : led.getAccount with _ | ⟨answer, answers⟩
      · simp [ha] at he
      · cases answer with
        | none =>
          simp [ha] at he
          subst he
          exact ⟨i0, rfl, le_refl _⟩
        | some was =>
          simp only [ha] at he
          have hsh := (engine_shape cfg cpuAsset netAsset i0 (firstAcc :: others) firstAcc was
            fuel .retry true { led with getAccount := answers }).2
          split at he
          · simp only [List.mem_cons] at he
            rcases he with rfl | he
            · exact ⟨i0, rfl, le_refl _⟩
            · exact ⟨i0, (hsh e he).1, le_refl _⟩
          · simp only [List.cons_append, List.mem_cons, List.mem_append] at he
            rcases he with rfl | (he | he) | he
            · exact ⟨i0, rfl, le_refl _⟩
            · exact ⟨i0, (hsh e he).1, le_refl _⟩
            · exact ⟨i0, (appendChunk_events _ _ e he).2, le_refl _⟩
            · obtain ⟨j, h1, h2⟩ := ih (i0 + 1) _ e he
              exact ⟨j, h1, by omega⟩

/-- Unfolding of the loop over the chunks at a chunk whose snapshot succeeds and
whose processing does not reach "Transaction validated.". -/
theorem processChunks_stopped (cfg : Config) (cpuAsset netAsset : Asset) (fuel i0 : Nat)
    (firstAcc : String) (others : List String) (rest : List (List String)) (led : Ledger)
    (was : Int) (answers : List (Option Int)) (o : Outcome)
    (ha : led.getAccount = some was :: answers)
    (hend : (engine cfg cpuAsset netAsset i0 (firstAcc :: others) firstAcc was fuel .retry true
      { led with getAccount := answers }).ending = .stopped o) :
    processChunks cfg cpuAsset netAsset fuel i0 ((firstAcc :: others) :: rest) led =
      { trace := .snapshot i0 firstAcc (some was) ::
          (engine cfg cpuAsset netAsset i0 (firstAcc :: others) firstAcc was fuel .retry true
            { led with getAccount := answers }).trace
        outcome := o } := by
  rw [processChunks]
  simp only [ha, hend]

/-- Unfolding of the loop over the chunks at a chunk that is validated. -/
theorem processChunks_validated (cfg : Config) (cpuAsset netAsset : Asset) (fuel i0 : Nat)
    (firstAcc : String) (others : List String) (rest : List (List String)) (led : Ledger)
    (was : Int) (answers : List (Option Int)) (led1 : Ledger)
    (ha : led.getAccount = some was :: answers)
    (hend : (engine cfg cpuAsset netAsset i0 (firstAcc :: others) firstAcc was fuel .retry true
      { led with getAccount := answers }).ending = .validated led1) :
    processChunks cfg cpuAsset netAsset fuel i0 ((firstAcc :: others) :: rest) led =
      { trace := (.snapshot i0 firstAcc (some was) ::
          (engine cfg cpuAsset netAsset i0 (firstAcc :: others) firstAcc was fuel .retry true
            { led with getAccount := answers }).trace)
          ++ appendChunk i0 (firstAcc :: others)
          ++ (processChunks cfg cpuAsset netAsset fuel (i0 + 1) rest led1).trace
        outcome := (processChunks cfg cpuAsset netAsset fuel (i0 + 1) rest led1).outcome } := by
  rw [processChunks]
  simp only [ha, hend]

/-- In the loop over the chunks, the events before a write of chunk `i` show that
chunk `i` was confirmed, and its sentinel is the first account of that chunk. -/
theorem processChunks_guarded (cfg : Config) (cpuAsset netAsset : Asset) (fuel : Nat) :
    ∀ (chunks : List (List String)) (i0 : Nat) (led : Ledger)
      (pre : List Event) (i : Nat) (text : String) (post : List Event),
      (processChunks cfg cpuAsset netAsset fuel i0 chunks led).trace
          = pre ++ Event.append i text :: post →
        ∃ firstAcc, i0 ≤ i ∧ (chunks[i - i0]?).bind List.head? = some firstAcc ∧
          Confirmed pre i firstAcc := by
  intro chunks
  induction chunks with
  | nil =>
    intro i0 led pre i text post h
    simp [processChunks] at h
  | cons chunk rest ih =>
    intro i0 led pre i text post h
    have noAppend : ∀ (T : List Event), (∀ e ∈ T, e.isAppend = false) →
        T = pre ++ Event.append i text :: post → False := by
      intro T hT hEq
      have := hT (Event.append i text) (by rw [hEq]; simp)
      simp [Event.isAppend] at this
    cases chunk with
    | nil => simp [processChunks] at h
    | cons firstAcc others =>
      rcases ha : led.getAccount with _ | ⟨answer, answers⟩
      · rw [processChunks] at h
        simp [ha] at h
      · cases answer with
        | none =>
          rw [processChunks] at h
          simp only [ha] at h
          exact (noAppend _ (by simp [Event.isAppend]) h).elim
        | some was =>
          obtain ⟨hsh1, hsh2⟩ := engine_shape cfg cpuAsset netAsset i0 (firstAcc :: others)
            firstAcc was fuel .retry true { led with getAccount := answers }
          rcases hend : (engine cfg cpuAsset netAsset i0 (firstAcc :: others) firstAcc was fuel
            .retry true { led with getAccount := answers }).ending with led1 | o
          · rw [processChunks_validated cfg cpuAsset netAsset fuel i0 firstAcc others rest led
              was answers led1 ha hend] at h
            simp only at h
            obtain ⟨body, now, htr, hne, hbody⟩ := hsh1 led1 hend
            have hH : ∀ e ∈ Event.snapshot i0 firstAcc (some was) ::
                (engine cfg cpuAsset netAsset i0 (firstAcc :: others) firstAcc was fuel
                  .retry true { led with getAccount := answers }).trace,
                e.chunk = some i0 ∧ e.isAppend = false := by
              intro e he
              simp only [List.mem_cons] at he
              rcases he with rfl | he
              · exact ⟨rfl, rfl⟩
              · exact ⟨(hsh2 e he).1, (hsh2 e he).2.1⟩
            by_cases hi : i = i0
            · subst hi
              rw [List.append_assoc] at h
              obtain ⟨mid, hpre, hmid⟩ := split_after (p := Event.isAppend)
                (x := Event.append i text) rfl _ _ pre post (fun e he => (hH e he).2) h
              obtain ⟨tail, htail⟩ := split_before
                (p := fun e => decide (e.chunk = some i)) (x := Event.append i text)
                (by simp [Event.chunk]) mid (appendChunk i (firstAcc :: others)) _ post
                (by
                  intro e he
                  obtain ⟨j, hj1, hj2⟩ := processChunks_chunk_ge cfg cpuAsset netAsset fuel
                    rest (i + 1) led1 e he
                  simp only [hj1, Option.some.injEq, decide_eq_false_iff_not]
                  omega) hmid
              refine ⟨firstAcc, le_refl _, by simp, was, now, [], body, mid, ?_, hne, ?_,
                hbody, ?_⟩
              · rw [hpre, htr]
                simp
              · intro e he; simp at he
              · intro e he
                exact appendChunk_events i (firstAcc :: others) e
                  (by rw [htail]; exact List.mem_append_left _ he)
            · obtain ⟨mid, hpre, hmid⟩ := split_after
                (p := fun e => decide (e.chunk = some i)) (x := Event.append i text)
                (by simp [Event.chunk]) _ _ pre post
                (by
                  intro e he
                  simp only [List.mem_append] at he
                  have hc : e.chunk = some i0 := by
                    rcases he with he | he
                    · exact (hH e he).1
                    · exact (appendChunk_events _ _ e he).2
                  simp only [hc, Option.some.injEq, decide_eq_false_iff_not]
                  omega) h
              obtain ⟨first2, hle, hlook, was2, now2, before, between, after, hmidEq, hne2,
                hbefore, hbetween, hafter⟩ := ih (i0 + 1) led1 mid i text post hmid
              refine ⟨first2, by omega, ?_, was2, now2,
                ((Event.snapshot i0 firstAcc (some was) ::
                  (engine cfg cpuAsset netAsset i0 (firstAcc :: others) firstAcc was fuel
                    .retry true { led with getAccount := answers }).trace)
                  ++ appendChunk i0 (firstAcc :: others)) ++ before,
                between, after, ?_, hne2, ?_, hbetween, hafter⟩
              · have : i - i0 = (i - (i0 + 1)) + 1 := by omega
                rw [this, List.getElem?_cons_succ]
                exact hlook
              · rw [hpre, hmidEq]
                simp only [List.append_assoc]
              · intro e he
                simp only [List.mem_append] at he
                rcases he with (he | he) | he
                · rw [(hH e he).1]; simp only [ne_eq, Option.some.injEq]; omega
                · rw [(appendChunk_events _ _ e he).2]
                  simp only [ne_eq, Option.some.injEq]; omega
                · exact hbefore e he
          · rw [processChunks_stopped cfg cpuAsset netAsset fuel i0 firstAcc others rest led
              was answers o ha hend] at h
            simp only at h
            refine (noAppend _ ?_ h).elim
            intro e he
            simp only [List.mem_cons] at he
            rcases he with rfl | he
            · rfl
            · exact (hsh2 e he).2.1

/-- The writes of the loop over the chunks are the accounts of its first `k`
chunks, for the number `k` of chunks it validated: every event belongs to one of
the chunks up to number `k` (counted from `i0`), the writes to the chunks before
it; each chunk before it has a snapshot and a validation read that differs from
it; every failing call belongs to chunk `k`, and is the last event when the loop
ends the process with status 1 or a panic of `MakeAndSignTransaction`; and the
loop ends with status 0 only after all chunks. -/
theorem processChunks_appended (cfg : Config) (cpuAsset netAsset : Asset) (fuel : Nat) :
    ∀ (chunks : List (List String)) (i0 : Nat) (led : Ledger),
      ∃ k, k ≤ chunks.length ∧
        appended (processChunks cfg cpuAsset netAsset fuel i0 chunks led).trace
          = ((chunks.take k).flatten).map (fun account => account ++ "\n") ∧
        (∀ e ∈ (processChunks cfg cpuAsset netAsset fuel i0 chunks led).trace,
          ∀ j, e.chunk = some j → j ≤ i0 + k ∧ (e.isAppend = true → j < i0 + k)) ∧
        ((processChunks cfg cpuAsset netAsset fuel i0 chunks led).outcome = .exit 0 →
          k = chunks.length) ∧
        (∀ e ∈ (processChunks cfg cpuAsset netAsset fuel i0 chunks led).trace,
          e.isFatal = true → e.chunk = some (i0 + k)) ∧
        (∀ j, i0 ≤ j → j < i0 + k → ∃ (firstAcc : String) (was now : Int),
          Event.snapshot j firstAcc (some was)
            ∈ (processChunks cfg cpuAsset netAsset fuel i0 chunks led).trace ∧
          Event.validate j firstAcc (some now)
            ∈ (processChunks cfg cpuAsset netAsset fuel i0 chunks led).trace ∧
          now ≠ was) ∧
        (((processChunks cfg cpuAsset netAsset fuel i0 chunks led).outcome = .exit 1 ∨
            (processChunks cfg cpuAsset netAsset fuel i0 chunks led).outcome = .panicPack) →
          ∃ e, (processChunks cfg cpuAsset netAsset fuel i0 chunks led).trace.getLast? = some e ∧
            e.isFatal = true) := by
  intro chunks
  induction chunks with
  | nil =>
    intro i0 led
    refine ⟨0, le_refl _, by simp [processChunks, appended], by simp [processChunks],
      by simp, by simp [processChunks], ?_, by simp [processChunks]⟩
    intro j h1 h2
    omega
  | cons chunk rest ih =>
    intro i0 led
    cases chunk with
    | nil =>
      refine ⟨0, Nat.zero_le _, by simp [processChunks, appended], by simp [processChunks],
        by simp [processChunks], by simp [processChunks], ?_, by simp [processChunks]⟩
      intro j h1 h2
      omega
    | cons firstAcc others =>
      rcases ha : led.getAccount with _ | ⟨answer, answers⟩
      · refine ⟨0, Nat.zero_le _, ?_, ?_, ?_, ?_, ?_, ?_⟩
        · rw [processChunks]; simp [ha, appended]
        · rw [processChunks]; simp [ha]
        · rw [processChunks]; simp [ha]
        · rw [processChunks]; simp [ha]
        · intro j h1 h2; omega
        · rw [processChunks]; simp [ha]
      · cases answer with
        | none =>
          refine ⟨0, Nat.zero_le _, ?_, ?_, ?_, ?_, ?_, ?_⟩
          · rw [processChunks]; simp [ha, appended]
          · rw [processChunks]; simp [ha, Event.chunk, Event.isAppend]
          · rw [processChunks]; simp [ha]
          · rw [processChunks]; simp [ha, Event.chunk]
          · intro j h1 h2; omega
          · rw [processChunks]; simp [ha, Event.isFatal]
        | some was =>
          obtain ⟨hsh1, hsh2⟩ := engine_shape cfg cpuAsset netAsset i0 (firstAcc :: others)
            firstAcc was fuel .retry true { led with getAccount := answers }
          obtain ⟨hf1, hf2⟩ := engine_fatal cfg cpuAsset netAsset i0 (firstAcc :: others)
            firstAcc was fuel .retry true { led with getAccount := answers }
          have hH : ∀ e ∈ Event.snapshot i0 firstAcc (some was) ::
              (engine cfg cpuAsset netAsset i0 (firstAcc :: others) firstAcc was fuel
                .retry true { led with getAccount := answers }).trace,
              e.chunk = some i0 ∧ e.isAppend = false := by
            intro e he
            simp only [List.mem_cons] at he
            rcases he with rfl | he
            · exact ⟨rfl, rfl⟩
            · exact ⟨(hsh2 e he).1, (hsh2 e he).2.1⟩
          rcases hend : (engine cfg cpuAsset netAsset i0 (firstAcc :: others) firstAcc was fuel
            .retry true { led with getAccount := answers }).ending with led1 | o
          · rw [processChunks_validated cfg cpuAsset netAsset fuel i0 firstAcc others rest led
              was answers led1 ha hend]
            obtain ⟨k, hk, happ, hev, hout, hfat, hconf, hlast⟩ := ih (i0 + 1) led1
            have hHf : ∀ e ∈ Event.snapshot i0 firstAcc (some was) ::
                (engine cfg cpuAsset netAsset i0 (firstAcc :: others) firstAcc was fuel
                  .retry true { led with getAccount := answers }).trace,
                e.isFatal = false := by
              intro e he
              simp only [List.mem_cons] at he
              rcases he with rfl | he
              · rfl
              · exact hf1 led1 hend e he
            refine ⟨k + 1, by simp only [List.length_cons]; omega, ?_, ?_, ?_, ?_, ?_, ?_⟩
            · simp only [appended_append, appended_appendChunk, happ,
                appended_of_no_append _ (fun e he => (hH e he).2), List.take_succ_cons,
                List.flatten_cons, List.map_append, List.nil_append]
            · intro e he j hj
              simp only [List.mem_append] at he
              rcases he with (he | he) | he
              · rw [(hH e he).1] at hj
                simp only [Option.some.injEq] at hj
                refine ⟨by omega, fun _ => by omega⟩
              · rw [(appendChunk_events _ _ e he).2] at hj
                simp only [Option.some.injEq] at hj
                refine ⟨by omega, fun _ => by omega⟩
              · obtain ⟨h1, h2⟩ := hev e he j hj
                refine ⟨by omega, fun ha => ?_⟩
                have := h2 ha
                omega
            · intro ho
              simp only [List.length_cons]
              rw [hout ho]
            · intro e he hfe
              simp only [List.mem_append] at he
              rcases he with (he | he) | he
              · rw [hHf e he] at hfe
                exact absurd hfe (by simp)
              · rw [isFatal_not_append (appendChunk_events _ _ e he).1] at hfe
                exact absurd hfe (by simp)
              · rw [hfat e he hfe]
                congr 1
                omega
            · intro j hj1 hj2
              by_cases hj : j = i0
              · subst hj
                obtain ⟨body, now, htr, hne, _⟩ := hsh1 led1 hend
                refine ⟨firstAcc, was, now, ?_, ?_, hne⟩
                · simp
                · simp only [List.mem_append, List.mem_cons]
                  left; left; right
                  rw [htr]
                  simp
              · obtain ⟨first2, was2, now2, hs, hv, hne2⟩ := hconf j (by omega) (by omega)
                exact ⟨first2, was2, now2, List.mem_append_right _ hs,
                  List.mem_append_right _ hv, hne2⟩
            · intro ho
              obtain ⟨e, hl, hfe⟩ := hlast ho
              exact ⟨e, getLast_append_of_some hl, hfe⟩
          · rw [processChunks_stopped cfg cpuAsset netAsset fuel i0 firstAcc others rest led
              was answers o ha hend]
            refine ⟨0, Nat.zero_le _, ?_, ?_, ?_, ?_, ?_, ?_⟩
            · simp only [List.take_zero, List.flatten_nil, List.map_nil]
              exact appended_of_no_append _ (fun e he => (hH e he).2)
            · intro e he j hj
              rw [(hH e he).1] at hj
              simp only [Option.some.injEq] at hj
              refine ⟨by omega, fun ha => ?_⟩
              rw [(hH e he).2] at ha
              exact absurd ha (by simp)
            · intro ho
              simp only at ho
              rcases engine_stopped_outcome cfg cpuAsset netAsset i0 (firstAcc :: others)
                firstAcc was fuel .retry true _ o hend with h | h | h <;>
                rw [h] at ho <;> simp at ho
            · intro e he _
              rw [(hH e he).1]
              rfl
            · intro j h1 h2; omega
            · intro ho
              obtain ⟨e, hl, hfe⟩ := hf2 o hend ho
              exact ⟨e, getLast_cons_of_some hl, hfe⟩

/-- The loop over the chunks never divides. -/
theorem processChunks_outcome (cfg : Config) (cpuAsset netAsset : Asset) (fuel : Nat) :
    ∀ (chunks : List (List String)) (i0 : Nat) (led : Ledger),
      (processChunks cfg cpuAsset netAsset fuel i0 chunks led).outcome ≠ .panicDivide := by
  intro chunks
  induction chunks with
  | nil => intro i0 led; simp [processChunks]
  | cons chunk rest ih =>
    intro i0 led
    cases chunk with
    | nil => simp [processChunks]
    | cons firstAcc others =>
      rcases ha : led.getAccount with _ | ⟨answer, answers⟩
      · rw [processChunks]; simp [ha]
      · cases answer with
        | none => rw [processChunks]; simp [ha]
        | some was =>
          rcases hend : (engine cfg cpuAsset netAsset i0 (firstAcc :: others) firstAcc was fuel
            .retry true { led with getAccount := answers }).ending with led1 | o
          · rw [processChunks_validated cfg cpuAsset netAsset fuel i0 firstAcc others rest led
              was answers led1 ha hend]
            exact ih (i0 + 1) led1
          · rw [processChunks_stopped cfg cpuAsset netAsset fuel i0 firstAcc others rest led
              was answers o ha hend]
            rcases engine_stopped_outcome cfg cpuAsset netAsset i0 (firstAcc :: others)
              firstAcc was fuel .retry true _ o hend with h | h | h <;> simp [h]

/-- Every push of the loop over the chunks carries the actions built for one of
the chunks. -/
theorem processChunks_pushes (cfg : Config) (cpuAsset netAsset : Asset) (fuel : Nat) :
    ∀ (chunks : List (List String)) (i0 : Nat) (led : Ledger) (j : Nat)
      (actions : List Action) (ok : Bool),
      Event.pushTransaction j actions ok
          ∈ (processChunks cfg cpuAsset netAsset fuel i0 chunks led).trace →
        ∃ chunk ∈ chunks, actions = chunkActions cfg cpuAsset netAsset chunk := by
  intro chunks
  induction chunks with
  | nil => intro i0 led j actions ok h; simp [processChunks] at h
  | cons chunk rest ih =>
    intro i0 led j actions ok h
    cases chunk with
    | nil => simp [processChunks] at h
    | cons firstAcc others =>
      rcases ha : led.getAccount with _ | ⟨answer, answers⟩
      · rw [processChunks] at h; simp [ha] at h
      · cases answer with
        | none => rw [processChunks] at h; simp [ha] at h
        | some was =>
          have heng := engine_pushes cfg cpuAsset netAsset i0 (firstAcc :: others) firstAcc
            was fuel .retry true { led with getAccount := answers } j actions ok
          rcases hend : (engine cfg cpuAsset netAsset i0 (firstAcc :: others) firstAcc was fuel
            .retry true { led with getAccount := answers }).ending with led1 | o
          · rw [processChunks_validated cfg cpuAsset netAsset fuel i0 firstAcc others rest led
              was answers led1 ha hend] at h
            simp only [List.cons_append, List.mem_cons, List.mem_append] at h
            rcases h with h | (h | h) | h
            · simp at h
            · exact ⟨_, List.mem_cons_self _ _, heng h⟩
            · have := (appendChunk_events _ _ _ h).1
              simp [Event.isAppend] at this
            · obtain ⟨c, hc, hact⟩ := ih (i0 + 1) led1 j actions ok h
              exact ⟨c, List.mem_cons_of_mem _ hc, hact⟩
          · rw [processChunks_stopped cfg cpuAsset netAsset fuel i0 firstAcc others rest led
              was answers o ha hend] at h
            simp only [List.mem_cons] at h
            rcases h with h | h
            · simp at h
            · exact ⟨_, List.mem_cons_self _ _, heng h⟩

theorem chunkActions_cpu_sum (cfg : Config) (cpuAsset netAsset : Asset) (chunk : List String) :
    ((chunkActions cfg cpuAsset netAsset chunk).map Action.cpuAmount).sum
      = cpuAsset.Amount * chunk.length := by
  induction chunk with
  | nil => simp [chunkActions]
  | cons a chunk ih =>
    simp only [chunkActions, List.map_cons, List.sum_cons, List.length_cons] at ih ⊢
    rw [ih]
    simp only [Action.cpuAmount, FullActionDelegateBW]
    push_cast
    ring

theorem plannedCpu_eq (cfg : Config) (cpuAsset netAsset : Asset) (chunks : List (List String)) :
    plannedCpu cfg cpuAsset netAsset chunks = cpuAsset.Amount * chunks.flatten.length := by
  induction chunks with
  | nil => simp [plannedCpu]
  | cons chunk rest ih =>
    simp only [plannedCpu, List.map_cons, List.sum_cons, List.flatten_cons,
      List.length_append] at ih ⊢
    rw [ih, chunkActions_cpu_sum]
    push_cast
    ring

/-! ## The function `main` -/

/-- Either a run of `main` emits no event that belongs to a chunk, or it has
passed the balance check with at least one chunk and a per-account amount, and
goes through the loop over the chunks. -/
theorem main_cases (env : Env) (fuel : Nat) :
    ((∀ e ∈ (main env fuel).trace, e.chunk = none) ∧
      ((main env fuel).outcome = .exit 0 → plannedChunks env fuel = [])) ∨
    ∃ (cfg : Config) (accounts : List String) (perAccount : Int) (symbol : Symbol),
      env.config = some cfg ∧ loadAccounts env = some accounts ∧
      makeChunks accounts cfg.chunkSize fuel = .done (plannedChunks env fuel) ∧
      plannedChunks env fuel ≠ [] ∧
      divInt64 cfg.useBalanceInt64 accounts.length = some perAccount ∧
      main env fuel =
        { trace := .getCurrencyBalance cfg.account ::
            (processChunks cfg { Amount := perAccount, Symbol := symbol }
              { Amount := 0, Symbol := symbol } fuel 0 (plannedChunks env fuel)
              env.ledger).trace
          outcome := (processChunks cfg { Amount := perAccount, Symbol := symbol }
              { Amount := 0, Symbol := symbol } fuel 0 (plannedChunks env fuel)
              env.ledger).outcome } := by
  rcases hc : env.config with _ | cfg
  · left; simp [main, plannedChunks, hc]
  · rcases hl : loadAccounts env with _ | accounts
    · left; simp [main, plannedChunks, hc, hl]
    · rcases hm : makeChunks accounts cfg.chunkSize fuel with chunks | o
      · have hplan : plannedChunks env fuel = chunks := by simp [plannedChunks, hc, hl, hm]
        rcases hb : env.getCurrencyBalance with _ | ⟨b, rest⟩
        · left
          simp [main, hc, hl, hm, mainLedger, hb, Event.chunk]
        · by_cases hlt : b < cfg.useBalanceInt64
          · left
            simp [main, hc, hl, hm, mainLedger, hb, hlt, Event.chunk]
          · by_cases hz : chunks.length = 0
            · left
              have hnil : chunks = [] := List.length_eq_zero.mp hz
              simp [main, hc, hl, hm, mainLedger, hb, hlt, hplan, hnil, Event.chunk]
            · rcases hd : divInt64 cfg.useBalanceInt64 accounts.length with _ | perAccount
              · left
                simp [main, hc, hl, hm, mainLedger, hb, hlt, hz, hd, Event.chunk]
              · right
                refine ⟨cfg, accounts, perAccount, { Precision := 8, Symbol := "WAX" },
                  rfl, rfl, by rw [hplan, hm], ?_, hd, ?_⟩
                · rw [hplan]; intro h; rw [h] at hz; simp at hz
                · simp only [main, hc, hl, hm, mainLedger, hb, hlt, hz, hd, hplan, if_false]
      · left; simp [main, plannedChunks, hc, hl, hm]

/-- No run of `main` divides by zero: the division is reached only with at least
one chunk, and the chunking loop yields a chunk only from a non-empty list. -/
theorem main_never_divides_by_zero (env : Env) (fuel : Nat) :
    (main env fuel).outcome ≠ .panicDivide := by
  rcases hc : env.config with _ | cfg
  · simp [main, hc]
  · rcases hl : loadAccounts env with _ | accounts
    · simp [main, hc, hl]
    · rcases hm : makeChunks accounts cfg.chunkSize fuel with chunks | o
      · rcases hb : env.getCurrencyBalance with _ | ⟨b, rest⟩
        · simp [main, hc, hl, hm, mainLedger, hb]
        · by_cases hlt : b < cfg.useBalanceInt64
          · simp [main, hc, hl, hm, mainLedger, hb, hlt]
          · by_cases hz : chunks.length = 0
            · simp [main, hc, hl, hm, mainLedger, hb, hlt, hz]
            · have hacc : accounts ≠ [] := by
                intro h
                rw [h] at hm
                have := makeChunks_nil _ _ _ hm
                rw [this] at hz
                simp at hz
              have hlen : (accounts.length : Int) ≠ 0 := by
                have := List.length_pos.mpr hacc
                omega
              simp only [main, hc, hl, hm, mainLedger, hb, hlt, hz, divInt64, hlen, if_false]
              exact processChunks_outcome _ _ _ _ _ _ _
      · have := chunkLoop_stopped accounts cfg.chunkSize fuel 0 [] o hm
        rcases this with h | h <;> simp [main, hc, hl, hm, h]

/-- Every CPU amount pushed in a run of `main` is the per-account amount that the
division of `main` yields. -/
theorem main_pushed_amounts (env : Env) (cfg : Config) (accounts : List String)
    (hcfg : env.config = some cfg) (hload : loadAccounts env = some accounts) (fuel : Nat) :
    ∀ amounts ∈ pushedCpu (main env fuel).trace, ∀ a ∈ amounts,
      divInt64 cfg.useBalanceInt64 accounts.length = some a := by
  intro amounts hmem a ha
  obtain ⟨j, actions, ok, hpush, rfl⟩ := mem_pushedCpu _ _ hmem
  rcases main_cases env fuel with ⟨hnone, _⟩ | ⟨cfg2, accounts2, perAccount, symbol, hc2, hl2, _,
    _, hdiv, hmain⟩
  · have := hnone _ hpush
    simp [Event.chunk] at this
  · rw [hcfg] at hc2
    rw [hload] at hl2
    simp only [Option.some.injEq] at hc2 hl2
    subst hc2 hl2
    rw [hmain] at hpush
    simp only [List.mem_cons] at hpush
    rcases hpush with hpush | hpush
    · simp at hpush
    · obtain ⟨chunk, _, hact⟩ := processChunks_pushes _ _ _ _ _ _ _ _ _ _ hpush
      rw [hact] at ha
      simp only [chunkActions, List.map_map, List.mem_map, Function.comp] at ha
      obtain ⟨acc, _, hacc⟩ := ha
      simp only [Action.cpuAmount, FullActionDelegateBW] at hacc
      rw [← hacc]
      exact hdiv

/-! ## The claims -/

/-- C1, evaluated on the code.  With accounts `A..E`, a progress log `[A]` and chunk
size 2 the pass over `done.txt` leaves `[B, C, D, E, E]`, which is cut into
`[[B, C], [D, E], [E]]` and not into `[[B, C], [D, E]]`; with accounts `[A, B]`
and a progress log `[B]` the logged account `B` stays in the only chunk. -/
theorem C1_done_pass_on_examples :
    donePass (readAccounts fiveAccounts) ["acctA"]
        = ["acctB", "acctC", "acctD", "acctE", "acctE"] ∧
      makeChunks (donePass (readAccounts fiveAccounts) ["acctA"]) 2 6
        = .done [["acctB", "acctC"], ["acctD", "acctE"], ["acctE"]] ∧
      makeChunks (donePass (readAccounts fiveAccounts) ["acctA"]) 2 6
        ≠ .done [["acctB", "acctC"], ["acctD", "acctE"]] ∧
      makeChunks (donePass (readAccounts ["acctA", "acctB"]) ["acctB"]) 2 6
        = .done [["acctA", "acctB"]] := by
  decide

/-- C2: for a chunk size `C > 0` (an `int`, so below `2^63`) and a list of `N`
accounts (at most `2^62`, as any slice that fits in memory), the chunking loop of
`main` ends, whatever the fuel above `N`, with `⌈N / C⌉` chunks whose
concatenation is the list; every chunk is non-empty and holds at most `C`
accounts, and every chunk but the last holds exactly `C`. -/
theorem C2_chunking_partitions (accounts : List String) (chunkSize : Int)
    (hpos : 0 < chunkSize) (hmax : chunkSize < 2 ^ 63) (hN : accounts.length ≤ 2 ^ 62) :
    ∃ chunks : List (List String),
      (∀ fuel, accounts.length < fuel → makeChunks accounts chunkSize fuel = .done chunks) ∧
      (chunks.length : Int) = ⌈(accounts.length : ℚ) / (chunkSize : ℚ)⌉ ∧
      chunks.flatten = accounts ∧
      (∀ chunk ∈ chunks, chunk ≠ [] ∧ (chunk.length : Int) ≤ chunkSize) ∧
      (∀ chunk ∈ chunks.dropLast, (chunk.length : Int) = chunkSize) := by
  obtain ⟨chunks, ⟨hflat, hlen, hall, hfull⟩, hrun⟩ :=
    makeChunks_partitions accounts chunkSize hpos hmax hN
  have hc : 0 < chunkSize.toNat := by omega
  have hcast : ((chunkSize.toNat : Nat) : Int) = chunkSize := Int.toNat_of_nonneg hpos.le
  refine ⟨chunks, hrun, ?_, hflat, ?_, ?_⟩
  · rw [hlen, ceil_div_eq _ _ hc]
    have : ((chunkSize.toNat : Nat) : ℚ) = (chunkSize : ℚ) := by exact_mod_cast hcast
    rw [this]
  · intro chunk hmem
    obtain ⟨h1, h2⟩ := hall chunk hmem
    exact ⟨h1, by omega⟩
  · intro chunk hmem
    have := hfull chunk hmem
    omega

/-- C2 at a concrete input: five accounts and chunk size 2. -/
theorem C2_chunking_partitions_witness :
    ∃ chunks : List (List String),
      (∀ fuel, fiveAccounts.length < fuel → makeChunks fiveAccounts 2 fuel = .done chunks) ∧
      (chunks.length : Int) = ⌈(fiveAccounts.length : ℚ) / ((2 : Int) : ℚ)⌉ ∧
      chunks.flatten = fiveAccounts ∧
      (∀ chunk ∈ chunks, chunk ≠ [] ∧ (chunk.length : Int) ≤ 2) ∧
      (∀ chunk ∈ chunks.dropLast, (chunk.length : Int) = 2) :=
  C2_chunking_partitions fiveAccounts 2 (by decide) (by decide) (by decide)

/-- C3 fails as stated: with `use_balance = -1.0` (`-100000000` units), three
accounts and a custodian balance of zero, `main` passes the balance check and
pushes three actions of `-33333333` units each; this is not `⌊budget / 3⌋`, which
is `-33333334`, and three times it exceeds the budget. -/
theorem C3_negative_budget_counterexample :
    pushedCpu (main negativeEnv 4).trace = [[-33333333, -33333333, -33333333]] ∧
      divInt64 negativeConfig.useBalanceInt64 (3 : Nat) = some (-33333333) ∧
      (-33333333 : Int) ≠ ⌊((negativeConfig.useBalanceInt64 : Int) : ℚ) / ((3 : Nat) : ℚ)⌋ ∧
      ¬ ((-33333333 : Int) * (3 : Nat) ≤ negativeConfig.useBalanceInt64) := by
  refine ⟨by decide, by decide, ?_, by decide⟩
  rw [Rat.floor_intCast_div_natCast]
  decide

/-- C3, as amended: for a total budget in `int64` units and a non-empty account
list, the division of `main` yields a per-account amount, which is the CPU amount
of every action that the run pushes; when the budget is not negative this amount
is `⌊budget / n⌋` and `perAccount * n ≤ budget`; when the budget is negative the
quotient is truncated toward zero, so it is `⌈budget / n⌉` and
`budget ≤ perAccount * n`. -/
theorem C3_per_account_amount (env : Env) (cfg : Config) (accounts : List String)
    (hcfg : env.config = some cfg) (hload : loadAccounts env = some accounts)
    (hrange : inInt64 cfg.useBalanceInt64) (hn : 0 < accounts.length) :
    ∃ perAccount : Int,
      divInt64 cfg.useBalanceInt64 accounts.length = some perAccount ∧
      (∀ fuel, ∀ amounts ∈ pushedCpu (main env fuel).trace, ∀ a ∈ amounts, a = perAccount) ∧
      (0 ≤ cfg.useBalanceInt64 →
        perAccount = ⌊(cfg.useBalanceInt64 : ℚ) / (accounts.length : ℚ)⌋ ∧
          perAccount * accounts.length ≤ cfg.useBalanceInt64) ∧
      (cfg.useBalanceInt64 < 0 →
        perAccount = ⌈(cfg.useBalanceInt64 : ℚ) / (accounts.length : ℚ)⌉ ∧
          cfg.useBalanceInt64 ≤ perAccount * accounts.length) := by
  obtain ⟨perAccount, hdiv, hfloor, hceil⟩ :=
    divInt64_quotient cfg.useBalanceInt64 accounts.length hrange hn
  refine ⟨perAccount, hdiv, ?_, hfloor, hceil⟩
  intro fuel amounts hmem a ha
  have := main_pushed_amounts env cfg accounts hcfg hload fuel amounts hmem a ha
  rw [hdiv] at this
  simp only [Option.some.injEq] at this
  exact this.symm

/-- C3 at the input of the specification: a budget of `1000000000` units (10.0)
and three accounts give `333333333` units in every pushed action. -/
theorem C3_per_account_amount_witness :
    divInt64 1000000000 (3 : Nat) = some 333333333 ∧
    pushedCpu (main threeEnv 4).trace = [[333333333, 333333333, 333333333]] ∧
    ∃ perAccount : Int,
      divInt64 1000000000 (["acctA", "acctB", "acctC"] : List String).length
        = some perAccount ∧
      (∀ fuel, ∀ amounts ∈ pushedCpu (main threeEnv fuel).trace, ∀ a ∈ amounts,
        a = perAccount) ∧
      ((0 : Int) ≤ 1000000000 →
        perAccount = ⌊((1000000000 : Int) : ℚ)
            / ((["acctA", "acctB", "acctC"] : List String).length : ℚ)⌋ ∧
          perAccount * (["acctA", "acctB", "acctC"] : List String).length ≤ 1000000000) ∧
      ((1000000000 : Int) < 0 →
        perAccount = ⌈((1000000000 : Int) : ℚ)
            / ((["acctA", "acctB", "acctC"] : List String).length : ℚ)⌉ ∧
          1000000000 ≤ perAccount * (["acctA", "acctB", "acctC"] : List String).length) :=
  ⟨by decide, by decide,
    C3_per_account_amount threeEnv { sampleConfig with chunkSize := 3 }
      ["acctA", "acctB", "acctC"] rfl (by decide) (by decide) (by decide)⟩

/-- C4: in every run of `main`, the events before a write of chunk `i` to
`done.txt` hold the snapshot read of the first account of chunk `i`, taken before
any push of that chunk, and a later validation read of that account whose CPU
weight differs from the snapshot, every validation read in between being equal to
it; and a prefix of the run in which every validation read equals the snapshot of
its chunk holds no write. -/
theorem C4_write_only_after_changed_read (env : Env) (fuel : Nat) :
    (∀ (pre : List Event) (i : Nat) (text : String) (post : List Event),
      (main env fuel).trace = pre ++ Event.append i text :: post →
        ∃ firstAcc, ((plannedChunks env fuel)[i]?).bind List.head? = some firstAcc ∧
          Confirmed pre i firstAcc) ∧
    (∀ (pre post : List Event), (main env fuel).trace = pre ++ post →
      (∀ (i : Nat) (account : String) (was now : Int),
        Event.snapshot i account (some was) ∈ pre →
          Event.validate i account (some now) ∈ pre → now = was) →
      ∀ e ∈ pre, e.isAppend = false) := by
  have part1 : ∀ (pre : List Event) (i : Nat) (text : String) (post : List Event),
      (main env fuel).trace = pre ++ Event.append i text :: post →
        ∃ firstAcc, ((plannedChunks env fuel)[i]?).bind List.head? = some firstAcc ∧
          Confirmed pre i firstAcc := by
    intro pre i text post h
    rcases main_cases env fuel with ⟨hnone, _⟩ | ⟨cfg, accounts, perAccount, symbol, _, _, _,
      _, _, hmain⟩
    · have := hnone (Event.append i text) (by rw [h]; simp)
      simp [Event.chunk] at this
    · rw [hmain] at h
      simp only at h
      cases pre with
      | nil => simp at h
      | cons x pre =>
        simp only [List.cons_append, List.cons.injEq] at h
        obtain ⟨hx, h⟩ := h
        obtain ⟨firstAcc, _, hlook, was, now, before, between, after, hpre, hne, hbefore,
          hbetween, hafter⟩ := processChunks_guarded cfg _ _ fuel _ 0 env.ledger pre i text
            post h
        refine ⟨firstAcc, by simpa using hlook, was, now, x :: before, between, after, ?_,
          hne, ?_, hbetween, hafter⟩
        · rw [hpre]; rfl
        · intro e he
          simp only [List.mem_cons] at he
          rcases he with rfl | he
          · rw [← hx]; simp [Event.chunk]
          · exact hbefore e he
  refine ⟨part1, ?_⟩
  intro pre post h hall e he
  cases e with
  | append i text =>
    exfalso
    obtain ⟨p1, p2, hsplit⟩ := List.append_of_mem he
    rw [hsplit, List.append_assoc] at h
    simp only [List.cons_append] at h
    obtain ⟨firstAcc, _, was, now, before, between, after, hp1, hne, _⟩ :=
      part1 p1 i text (p2 ++ post) h
    apply hne
    apply hall i firstAcc was now
    · rw [hsplit, hp1]; simp
    · rw [hsplit, hp1]; simp
  | _ => rfl

/-- C4 on a concrete run: the write of `D` for chunk 1 is preceded by the snapshot
of the first account of chunk 1 and by a validation read that differs from it. -/
theorem C4_write_only_after_changed_read_witness :
    ∃ pre post firstAcc,
      (main sampleRunEnv 10).trace = pre ++ Event.append 1 "acctD\n" :: post ∧
      ((plannedChunks sampleRunEnv 10)[1]?).bind List.head? = some firstAcc ∧
      Confirmed pre 1 firstAcc := by
  obtain ⟨pre, post, h⟩ := List.append_of_mem
    (show Event.append 1 "acctD\n" ∈ (main sampleRunEnv 10).trace by decide)
  obtain ⟨firstAcc, hlook, hc⟩ :=
    (C4_write_only_after_changed_read sampleRunEnv 10).1 pre 1 _ post h
  exact ⟨pre, post, firstAcc, h, hlook, hc⟩

/-- C5 fails as stated: without accounts `main` still queries the balance, and
with a balance below the budget it ends with status 1 instead of reporting that
there is nothing to do. -/
theorem C5_balance_queried_without_chunks :
    plannedChunks emptyPoorEnv 1 = [] ∧
    main emptyPoorEnv 1 =
      { trace := [.getCurrencyBalance "custodian", .say "Not enough WAX balance"]
        outcome := .exit 1 } ∧
    plannedChunks emptyRichEnv 1 = [] ∧
    Event.getCurrencyBalance "custodian" ∈ (main emptyRichEnv 1).trace := by
  decide

/-- C5, as amended: when no account is pending, `main` queries the custodian
balance; if the answer is a balance not below the total budget, it reports that
there is nothing to do and ends with status 0, with no other ledger call and
without reaching the division. -/
theorem C5_no_chunks_exit_zero (env : Env) (cfg : Config) (b : Int) (rest : List Int)
    (fuel : Nat) (hcfg : env.config = some cfg) (hload : loadAccounts env = some [])
    (hbal : env.getCurrencyBalance = b :: rest) (hge : cfg.useBalanceInt64 ≤ b)
    (hfuel : 0 < fuel) :
    plannedChunks env fuel = [] ∧
    main env fuel =
      { trace := [.getCurrencyBalance cfg.account, .say "No chunks to process."]
        outcome := .exit 0 } := by
  obtain ⟨f, rfl⟩ : ∃ f, fuel = f + 1 := ⟨fuel - 1, by omega⟩
  have hm : makeChunks [] cfg.chunkSize (f + 1) = .done [] := by
    simp [makeChunks, chunkLoop]
  have hnot : ¬ b < cfg.useBalanceInt64 := by omega
  constructor
  · simp [plannedChunks, hcfg, hload, hm]
  · simp [main, hcfg, hload, hm, mainLedger, hbal, hnot]

/-- C5 as amended, at a concrete input: no accounts and a balance of 50.0 WAX. -/
theorem C5_no_chunks_exit_zero_witness :
    plannedChunks emptyRichEnv 1 = [] ∧
    main emptyRichEnv 1 =
      { trace := [.getCurrencyBalance sampleConfig.account, .say "No chunks to process."]
        outcome := .exit 0 } :=
  C5_no_chunks_exit_zero emptyRichEnv sampleConfig 5000000000 [] 1 rfl rfl rfl
    (by decide) (by decide)

/-- C6: when the balance returned by the ledger is below the total budget, no run
of `main` calls `PushTransaction` or writes to `done.txt`, and none ends with
status 0; a run that has queried the balance has ended with status 1 after
reporting the shortage; and for a chunk size other than zero (with the bounds of
C2) every run with fuel above the number of accounts has ended with a non-zero
status. -/
theorem C6_insufficient_balance (env : Env) (cfg : Config) (b : Int) (rest : List Int)
    (hcfg : env.config = some cfg) (hbal : env.getCurrencyBalance = b :: rest)
    (hlt : b < cfg.useBalanceInt64) :
    (∀ fuel, (∀ e ∈ (main env fuel).trace, e.isPush = false ∧ e.isAppend = false) ∧
      (main env fuel).outcome ≠ .exit 0) ∧
    (∀ fuel, Event.getCurrencyBalance cfg.account ∈ (main env fuel).trace →
      main env fuel =
        { trace := [.getCurrencyBalance cfg.account, .say "Not enough WAX balance"]
          outcome := .exit 1 }) ∧
    (cfg.chunkSize ≠ 0 → inInt64 cfg.chunkSize →
      (∀ accounts, loadAccounts env = some accounts → accounts.length ≤ 2 ^ 62) →
      ∃ fuel0, ∀ fuel, fuel0 ≤ fuel →
        ∃ code, (main env fuel).outcome.status = some code ∧ code ≠ 0) := by
  refine ⟨?_, ?_, ?_⟩
  · intro fuel
    rcases hl : loadAccounts env with _ | accounts
    · simp [main, hcfg, hl]
    · rcases hm : makeChunks accounts cfg.chunkSize fuel with chunks | o
      · simp [main, hcfg, hl, hm, mainLedger, hbal, hlt, Event.isPush, Event.isAppend]
      · have := chunkLoop_stopped accounts cfg.chunkSize fuel 0 [] o hm
        rcases this with h | h <;> simp [main, hcfg, hl, hm, h]
  · intro fuel hmem
    rcases hl : loadAccounts env with _ | accounts
    · simp [main, hcfg, hl] at hmem
    · rcases hm : makeChunks accounts cfg.chunkSize fuel with chunks | o
      · simp [main, hcfg, hl, hm, mainLedger, hbal, hlt]
      · simp [main, hcfg, hl, hm] at hmem
  · intro hzero hrange hlen
    rcases hl : loadAccounts env with _ | accounts
    · exact ⟨0, fun fuel _ => ⟨1, by simp [main, hcfg, hl, Outcome.status], by decide⟩⟩
    · rcases lt_or_gt_of_ne hzero with hneg | hpos
      · refine ⟨1, fun fuel hfuel => ?_⟩
        obtain ⟨f, rfl⟩ : ∃ f, fuel = f + 1 := ⟨fuel - 1, by omega⟩
        by_cases hacc : accounts = []
        · subst hacc
          have hm : makeChunks [] cfg.chunkSize (f + 1) = .done [] := by
            simp [makeChunks, chunkLoop]
          exact ⟨1, by simp [main, hcfg, hl, hm, mainLedger, hbal, hlt, Outcome.status],
            by decide⟩
        · have hm := makeChunks_negative accounts cfg.chunkSize f hneg hrange hacc
          exact ⟨2, by simp [main, hcfg, hl, hm, Outcome.status], by decide⟩
      · obtain ⟨chunks, _, hrun⟩ :=
          makeChunks_partitions accounts cfg.chunkSize hpos hrange.2 (hlen accounts hl)
        refine ⟨accounts.length + 1, fun fuel hfuel => ⟨1, ?_, by decide⟩⟩
        simp [main, hcfg, hl, hrun fuel (by omega), mainLedger, hbal, hlt, Outcome.status]

/-- C6 at a concrete input: five accounts, a budget of 10.0 WAX and a balance of
9.99999999 WAX. -/
theorem C6_insufficient_balance_witness :
    (main poorEnv 6).trace
      = [.getCurrencyBalance "custodian", .say "Not enough WAX balance"] ∧
    (main poorEnv 6).outcome = .exit 1 ∧
    ∀ fuel, (∀ e ∈ (main poorEnv fuel).trace, e.isPush = false ∧ e.isAppend = false) ∧
      (main poorEnv fuel).outcome ≠ .exit 0 :=
  ⟨by decide, by decide,
    (C6_insufficient_balance poorEnv sampleConfig 999999999 [] rfl rfl (by decide)).1⟩

/-- C7: for one chunk, when the snapshot read returns `was`, the validation reads
return `was` exactly `k` times and then a different weight, and every build and
push succeeds, the run emits the snapshot, then the cycles of the specification
(one build and one push per cycle, at most two validation reads per push, a
second read after an unchanged first one, a new build and push after an unchanged
second one), then the writes of the chunk, and goes on with the next chunk; the
cycles hold exactly `k / 2 + 1` pushes and as many builds, all of them carrying
the actions of this chunk with the same amounts. -/
theorem C7_retry_cycles (cfg : Config) (cpuAsset netAsset : Asset) (i : Nat)
    (firstAcc : String) (others : List String) (later : List (List String))
    (was now : Int) (k : Nat) (builds : List Built) (rest : Ledger) (fuel : Nat)
    (hne : now ≠ was) (hlen : builds.length = k / 2 + 1)
    (hpack : ∀ b ∈ builds, b.packOk = true) (hfuel : k + k / 2 + 2 ≤ fuel) :
    processChunks cfg cpuAsset netAsset fuel i ((firstAcc :: others) :: later)
        (chunkScript was now k builds rest)
      = { trace := (.snapshot i firstAcc (some was) ::
            specCycles i (chunkActions cfg cpuAsset netAsset (firstAcc :: others)) firstAcc
              was now k builds)
            ++ appendChunk i (firstAcc :: others)
            ++ (processChunks cfg cpuAsset netAsset fuel (i + 1) later rest).trace
          outcome := (processChunks cfg cpuAsset netAsset fuel (i + 1) later rest).outcome } ∧
    (specCycles i (chunkActions cfg cpuAsset netAsset (firstAcc :: others)) firstAcc
      was now k builds).countP Event.isPush = k / 2 + 1 ∧
    (specCycles i (chunkActions cfg cpuAsset netAsset (firstAcc :: others)) firstAcc
      was now k builds).countP Event.isBuild = k / 2 + 1 ∧
    (∀ e ∈ specCycles i (chunkActions cfg cpuAsset netAsset (firstAcc :: others)) firstAcc
        was now k builds,
      (e.isPush = true → ∃ ok, e = .pushTransaction i
        (chunkActions cfg cpuAsset netAsset (firstAcc :: others)) ok) ∧
      (e.isBuild = true → ∃ b, e = .makeAndSign i
        (chunkActions cfg cpuAsset netAsset (firstAcc :: others)) b)) := by
  have hrun := engine_cycles cfg cpuAsset netAsset i (firstAcc :: others) firstAcc was now hne
    rest k builds fuel true hlen hpack hfuel
  refine ⟨?_, specCycles_counts i _ firstAcc was now k builds hlen⟩
  have hend : (engine cfg cpuAsset netAsset i (firstAcc :: others) firstAcc was fuel .retry true
      { chunkScript was now k builds rest with
        getAccount := List.replicate k (some was) ++ some now :: rest.getAccount }).ending
      = .validated rest := by
    show (engine cfg cpuAsset netAsset i (firstAcc :: others) firstAcc was fuel .retry true
      (cycleLedger was now k builds rest)).ending = .validated rest
    rw [hrun]
  have key : (⟨(.snapshot i firstAcc (some was) ::
            (engine cfg cpuAsset netAsset i (firstAcc :: others) firstAcc was fuel .retry true
              (cycleLedger was now k builds rest)).trace)
            ++ appendChunk i (firstAcc :: others)
            ++ (processChunks cfg cpuAsset netAsset fuel (i + 1) later rest).trace,
          (processChunks cfg cpuAsset netAsset fuel (i + 1) later rest).outcome⟩ : Run)
      = ⟨(.snapshot i firstAcc (some was) ::
            specCycles i (chunkActions cfg cpuAsset netAsset (firstAcc :: others)) firstAcc
              was now k builds)
            ++ appendChunk i (firstAcc :: others)
            ++ (processChunks cfg cpuAsset netAsset fuel (i + 1) later rest).trace,
          (processChunks cfg cpuAsset netAsset fuel (i + 1) later rest).outcome⟩ := by
    rw [hrun]
  rw [processChunks_validated cfg cpuAsset netAsset fuel i firstAcc others later
    (chunkScript was now k builds rest) was _ rest rfl hend]
  exact key

/-- C7 at a concrete input: a chunk of two accounts, snapshot weight 10, two
unchanged validation reads and then weight 11; the run makes two pushes. -/
theorem C7_retry_cycles_witness :
    (processChunks sampleConfig ⟨200000000, ⟨8, "WAX"⟩⟩ ⟨0, ⟨8, "WAX"⟩⟩ 5 0
        [["acctA", "acctB"]] (chunkScript 10 11 2 twoBuilds emptyLedger)).outcome = .exit 0 ∧
    (processChunks sampleConfig ⟨200000000, ⟨8, "WAX"⟩⟩ ⟨0, ⟨8, "WAX"⟩⟩ 5 0
        [["acctA", "acctB"]] (chunkScript 10 11 2 twoBuilds emptyLedger)).trace.countP
      Event.isPush = 2 := by
  have h := C7_retry_cycles sampleConfig ⟨200000000, ⟨8, "WAX"⟩⟩ ⟨0, ⟨8, "WAX"⟩⟩ 0
    "acctA" ["acctB"] [] 10 11 2 twoBuilds emptyLedger 5 (by decide) (by decide)
    (by decide) (by decide)
  refine ⟨?_, ?_⟩
  · rw [h.1]; rfl
  · rw [h.1]; decide

/-- C8: in every run of `main`, however it ends, the texts written to `done.txt`
are, in order, the accounts (one per line) of the first `k` chunks, where `k` is
the number of chunks the run has confirmed: every chunk before `k` has its
snapshot and a validation read that differs from it, every event of the run
belongs to one of the chunks `0 .. k`, the writes to the chunks before `k`; every
failing call (an account lookup or a push that returns an error, a build that
panics) belongs to chunk `k`, so the chunk it aborts has no line; a run that ends
inside the loop with status 1 or with the panic of the build has such a call as
its last event; and a run that ends with status 0 has written all chunks. -/
theorem C8_progress_log_holds_first_chunks (env : Env) (fuel : Nat) :
    ∃ k, k ≤ (plannedChunks env fuel).length ∧
      appended (main env fuel).trace
        = (((plannedChunks env fuel).take k).flatten).map (fun account => account ++ "\n") ∧
      (∀ e ∈ (main env fuel).trace, ∀ j, e.chunk = some j →
        j ≤ k ∧ (e.isAppend = true → j < k)) ∧
      ((main env fuel).outcome = .exit 0 → k = (plannedChunks env fuel).length) ∧
      (∀ j < k, ∃ (firstAcc : String) (was now : Int),
        Event.snapshot j firstAcc (some was) ∈ (main env fuel).trace ∧
        Event.validate j firstAcc (some now) ∈ (main env fuel).trace ∧ now ≠ was) ∧
      (∀ e ∈ (main env fuel).trace, e.isFatal = true →
        e.chunk = some k ∧
          ∀ e2 ∈ (main env fuel).trace, e2.isAppend = true → e2.chunk ≠ e.chunk) ∧
      (((main env fuel).outcome = .exit 1 ∨ (main env fuel).outcome = .panicPack) →
        ∀ e, (main env fuel).trace.getLast? = some e → e.chunk ≠ none →
          e.isFatal = true ∧ e.chunk = some k) := by
  rcases main_cases env fuel with ⟨hnone, hzero⟩ | ⟨cfg, accounts, perAccount, symbol, _, _, _,
    _, _, hmain⟩
  · refine ⟨0, Nat.zero_le _, ?_, ?_, ?_, ?_, ?_, ?_⟩
    · simp only [List.take_zero, List.flatten_nil, List.map_nil]
      apply appended_of_no_append
      intro e he
      have := hnone e he
      cases e <;> simp_all [Event.chunk, Event.isAppend]
    · intro e he j hj
      rw [hnone e he] at hj
      simp at hj
    · intro ho
      rw [hzero ho]
      rfl
    · intro j hj
      omega
    · intro e he hfe
      exact absurd (hnone e he) (isFatal_chunk hfe)
    · intro _ e hl hc
      exact absurd (hnone e (List.mem_of_mem_getLast? hl)) hc
  · obtain ⟨k, hk, happ, hev, hout, hfat, hconf, hlast⟩ := processChunks_appended cfg
      { Amount := perAccount, Symbol := symbol } { Amount := 0, Symbol := symbol } fuel
      (plannedChunks env fuel) 0 env.ledger
    rw [hmain]
    have hevents : ∀ e ∈ Event.getCurrencyBalance cfg.account ::
        (processChunks cfg { Amount := perAccount, Symbol := symbol }
          { Amount := 0, Symbol := symbol } fuel 0 (plannedChunks env fuel) env.ledger).trace,
        ∀ j, e.chunk = some j → j ≤ k ∧ (e.isAppend = true → j < k) := by
      intro e he j hj
      simp only [List.mem_cons] at he
      rcases he with rfl | he
      · simp [Event.chunk] at hj
      · have := hev e he j hj
        simpa using this
    have hfatal : ∀ e ∈ Event.getCurrencyBalance cfg.account ::
        (processChunks cfg { Amount := perAccount, Symbol := symbol }
          { Amount := 0, Symbol := symbol } fuel 0 (plannedChunks env fuel) env.ledger).trace,
        e.isFatal = true → e.chunk = some k := by
      intro e he hfe
      simp only [List.mem_cons] at he
      rcases he with rfl | he
      · simp [Event.isFatal] at hfe
      · have := hfat e he hfe
        simpa using this
    refine ⟨k, hk, ?_, hevents, hout, ?_, ?_, ?_⟩
    · simp only [appended]
      exact happ
    · intro j hj
      obtain ⟨firstAcc, was, now, hs, hv, hne⟩ := hconf j (Nat.zero_le _) (by omega)
      exact ⟨firstAcc, was, now, List.mem_cons_of_mem _ hs, List.mem_cons_of_mem _ hv, hne⟩
    · intro e he hfe
      have hk2 := hfatal e he hfe
      refine ⟨hk2, ?_⟩
      intro e2 he2 ha2 heq
      rw [hk2] at heq
      have := (hevents e2 he2 k heq).2 ha2
      omega
    · intro ho e hl hc
      simp only at ho
      obtain ⟨e2, hl2, hf2⟩ := hlast ho
      have : (Event.getCurrencyBalance cfg.account ::
          (processChunks cfg { Amount := perAccount, Symbol := symbol }
            { Amount := 0, Symbol := symbol } fuel 0 (plannedChunks env fuel)
            env.ledger).trace).getLast? = some e2 := getLast_cons_of_some hl2
      simp only at hl
      rw [this] at hl
      simp only [Option.some.injEq] at hl
      subst hl
      exact ⟨hf2, hfatal _ (List.mem_of_mem_getLast? this) hf2⟩

/-- C8 on a concrete run: the two confirmed chunks are written; the run ends with
status 1 on the failing push of chunk 2, and chunk 2 has no line. -/
theorem C8_progress_log_holds_first_chunks_witness :
    (main sampleRunEnv 10).outcome = .exit 1 ∧
    plannedChunks sampleRunEnv 10 = [["acctB", "acctC"], ["acctD", "acctE"], ["acctE"]] ∧
    appended (main sampleRunEnv 10).trace = ["acctB\n", "acctC\n", "acctD\n", "acctE\n"] ∧
    ((main sampleRunEnv 10).trace.getLast?).map (fun e => (e.isFatal, e.chunk))
      = some (true, some 2) ∧
    ((main sampleRunEnv 10).trace.filter Event.isAppend).map Event.chunk
      = [some 0, some 0, some 1, some 1] ∧
    ∃ k, k ≤ (plannedChunks sampleRunEnv 10).length ∧
      appended (main sampleRunEnv 10).trace
        = (((plannedChunks sampleRunEnv 10).take k).flatten).map
            (fun account => account ++ "\n") ∧
      (∀ e ∈ (main sampleRunEnv 10).trace, ∀ j, e.chunk = some j →
        j ≤ k ∧ (e.isAppend = true → j < k)) ∧
      ((main sampleRunEnv 10).outcome = .exit 0 →
        k = (plannedChunks sampleRunEnv 10).length) ∧
      (∀ j < k, ∃ (firstAcc : String) (was now : Int),
        Event.snapshot j firstAcc (some was) ∈ (main sampleRunEnv 10).trace ∧
        Event.validate j firstAcc (some now) ∈ (main sampleRunEnv 10).trace ∧ now ≠ was) ∧
      (∀ e ∈ (main sampleRunEnv 10).trace, e.isFatal = true →
        e.chunk = some k ∧
          ∀ e2 ∈ (main sampleRunEnv 10).trace, e2.isAppend = true → e2.chunk ≠ e.chunk) ∧
      (((main sampleRunEnv 10).outcome = .exit 1 ∨
          (main sampleRunEnv 10).outcome = .panicPack) →
        ∀ e, (main sampleRunEnv 10).trace.getLast? = some e → e.chunk ≠ none →
          e.isFatal = true ∧ e.chunk = some k) :=
  ⟨by decide, by decide, by decide, by decide, by decide,
    C8_progress_log_holds_first_chunks sampleRunEnv 10⟩

/-- C9: for a total budget that is not negative, a chunk size `C > 0` and a
non-empty account list (with the bounds of C2), the chunking loop ends, the
division yields a per-account amount, and the CPU amounts of one transaction per
chunk, one action per account, sum up to at most the total budget; and no run of
`main`, whatever its inputs, reaches the division with a zero account count. -/
theorem C9_delegated_total_within_budget (cfg : Config) (L D : List String)
    (hbudget : 0 ≤ cfg.useBalanceInt64) (hrange : cfg.useBalanceInt64 < 2 ^ 63)
    (hpos : 0 < cfg.chunkSize) (hmax : cfg.chunkSize < 2 ^ 63)
    (hne : L ≠ []) (hlen : L.length ≤ 2 ^ 62) :
    (∃ (chunks : List (List String)) (perAccount : Int),
      (∀ fuel, L.length < fuel →
        makeChunks (donePass L D) cfg.chunkSize fuel = .done chunks) ∧
      divInt64 cfg.useBalanceInt64 (donePass L D).length = some perAccount ∧
      ∀ symbol : Symbol,
        plannedCpu cfg { Amount := perAccount, Symbol := symbol }
          { Amount := 0, Symbol := symbol } chunks ≤ cfg.useBalanceInt64) ∧
    (∀ (env : Env) (fuel : Nat), (main env fuel).outcome ≠ .panicDivide) := by
  refine ⟨?_, main_never_divides_by_zero⟩
  have hN2 : (donePass L D).length ≤ 2 ^ 62 := by rw [donePass_length]; exact hlen
  obtain ⟨chunks, ⟨hflat, _, _, _⟩, hrun⟩ :=
    makeChunks_partitions (donePass L D) cfg.chunkSize hpos hmax hN2
  have hLpos : 0 < L.length := List.length_pos.mpr hne
  have hinr : inInt64 cfg.useBalanceInt64 := by
    unfold inInt64
    refine ⟨?_, hrange⟩
    have : -(2 : Int) ^ 63 ≤ 0 := by norm_num
    omega
  obtain ⟨perAccount, hdiv, hfloor, _⟩ :=
    divInt64_quotient cfg.useBalanceInt64 L.length hinr hLpos
  refine ⟨chunks, perAccount, ?_, ?_, ?_⟩
  · intro fuel hfuel
    exact hrun fuel (by rw [donePass_length]; exact hfuel)
  · rw [donePass_length]; exact hdiv
  · intro symbol
    rw [plannedCpu_eq, hflat, donePass_length]
    exact (hfloor hbudget).2

/-- C9 at a concrete input: the sample configuration (10.0 WAX, chunk size 2) and
accounts `A..E` with `A` in the progress log. -/
theorem C9_delegated_total_within_budget_witness :
    ∃ (chunks : List (List String)) (perAccount : Int),
      (∀ fuel, fiveAccounts.length < fuel →
        makeChunks (donePass fiveAccounts ["acctA"]) sampleConfig.chunkSize fuel
          = .done chunks) ∧
      divInt64 sampleConfig.useBalanceInt64 (donePass fiveAccounts ["acctA"]).length
        = some perAccount ∧
      ∀ symbol : Symbol,
        plannedCpu sampleConfig { Amount := perAccount, Symbol := symbol }
          { Amount := 0, Symbol := symbol } chunks ≤ sampleConfig.useBalanceInt64 :=
  (C9_delegated_total_within_budget sampleConfig fiveAccounts ["acctA"]
    (by decide) (by decide) (by decide) (by decide) (by decide) (by decide)).1

/-- C10: the pass over `done.txt` leaves `accounts` with the length and the last
element of the list read from `accounts.txt`; so for a chunk size `C > 0` (and
the bounds of C2) the chunks hold as many accounts as were read, and the last
account read is the last account of the last chunk, whatever the progress log. -/
theorem C10_done_pass_keeps_length_and_last (L D : List String) :
    (donePass L D).length = L.length ∧
    (donePass L D).getLast? = L.getLast? ∧
    ∀ chunkSize : Int, 0 < chunkSize → chunkSize < 2 ^ 63 → L.length ≤ 2 ^ 62 →
      ∃ chunks : List (List String),
        (∀ fuel, L.length < fuel →
          makeChunks (donePass L D) chunkSize fuel = .done chunks) ∧
        chunks.flatten.length = L.length ∧
        chunks.getLast?.bind List.getLast? = L.getLast? := by
  refine ⟨donePass_length D L, donePass_getLast D L, ?_⟩
  intro chunkSize hpos hmax hN
  have hN2 : (donePass L D).length ≤ 2 ^ 62 := by rw [donePass_length]; exact hN
  obtain ⟨chunks, ⟨hflat, _, hall, _⟩, hrun⟩ :=
    makeChunks_partitions (donePass L D) chunkSize hpos hmax hN2
  refine ⟨chunks, ?_, ?_, ?_⟩
  · intro fuel hfuel
    exact hrun fuel (by rw [donePass_length]; exact hfuel)
  · rw [hflat, donePass_length]
  · rw [← getLast_flatten_of_nonempty chunks (fun c hc => (hall c hc).1), hflat,
      donePass_getLast]

/-- C10 at a concrete input: accounts `A..E`, all of them in the progress log,
chunk size 2. -/
theorem C10_done_pass_keeps_length_and_last_witness :
    ∃ chunks : List (List String),
      (∀ fuel, fiveAccounts.length < fuel →
        makeChunks (donePass fiveAccounts fiveAccounts) 2 fuel = .done chunks) ∧
      chunks.flatten.length = fiveAccounts.length ∧
      chunks.getLast?.bind List.getLast? = fiveAccounts.getLast? :=
  (C10_done_pass_keeps_length_and_last fiveAccounts fiveAccounts).2.2 2
    (by decide) (by decide) (by decide)

end Staker
